import Mathlib

/-!
Verification of the JSON collection-store core of the tiktok_scraper repository.

The scripts under scrutiny manipulate a single on-disk JSON array of records
through Python's `json` module (`json.load` / `json.dump(..., indent=2,
ensure_ascii=False)`), plain string operations, and `re.search`.  This file
shallowly embeds:

* the JSON value domain (`Json`) with Python's pretty printer (`dumpChars`)
  and a strict parser (`parseDoc`) modelling `json.dump(indent=2)` and
  `json.load`;
* the completeness scoring and deduplication functions of
  `robust_master_downloader.py` / `remove_duplicates.py`;
* the streaming append writer of `scripts/utils/memory_efficient_append.py`,
  as the exact sequence of `write` calls it performs plus a small
  file-system model for its crash/exception behaviour;
* the corrupted-store repairer of `scripts/cleanup/fix_json.py`;
* the regex-based URL cache and `is_duplicate` of
  `robust_master_downloader.py`.

Numbers are modelled as integers (the stores under consideration hold integer
counters; float formatting is irrelevant to every claim below).  Python dicts
are modelled as association lists in insertion order; duplicate keys do not
arise in any modelled input.
-/

namespace TikTok

/-- JSON values.  `obj` keeps fields in insertion order, as Python 3.7+ dicts
and `json.load` do. -/
inductive Json where
  | null : Json
  | bool (b : Bool) : Json
  | num (n : Int) : Json
  | str (s : String) : Json
  | arr (elems : List Json) : Json
  | obj (fields : List (String × Json)) : Json
  deriving Repr

mutual

/-- Structural equality test on JSON values. -/
def jsonBeq : Json → Json → Bool
  | Json.null, Json.null => true
  | Json.bool a, Json.bool b => a == b
  | Json.num a, Json.num b => a == b
  | Json.str a, Json.str b => a == b
  | Json.arr a, Json.arr b => jsonListBeq a b
  | Json.obj a, Json.obj b => jsonFieldsBeq a b
  | _, _ => false

/-- Structural equality test on lists of JSON values. -/
def jsonListBeq : List Json → List Json → Bool
  | [], [] => true
  | x :: xs, y :: ys => jsonBeq x y && jsonListBeq xs ys
  | _, _ => false

/-- Structural equality test on JSON object field lists. -/
def jsonFieldsBeq : List (String × Json) → List (String × Json) → Bool
  | [], [] => true
  | (k, v) :: xs, (l, w) :: ys => k == l && jsonBeq v w && jsonFieldsBeq xs ys
  | _, _ => false

end

mutual

theorem jsonBeq_iff : ∀ a b : Json, jsonBeq a b = true ↔ a = b
  | Json.null, b => by cases b <;> simp [jsonBeq]
  | Json.bool a, b => by cases b <;> simp [jsonBeq]
  | Json.num a, b => by cases b <;> simp [jsonBeq]
  | Json.str a, b => by cases b <;> simp [jsonBeq]
  | Json.arr a, b => by
    cases b <;> simp [jsonBeq]
    exact jsonListBeq_iff a _
  | Json.obj a, b => by
    cases b <;> simp [jsonBeq]
    exact jsonFieldsBeq_iff a _
termination_by a _ => sizeOf a

theorem jsonListBeq_iff : ∀ a b : List Json, jsonListBeq a b = true ↔ a = b
  | [], b => by cases b <;> simp [jsonListBeq]
  | x :: xs, b => by
    cases b with
    | nil => simp [jsonListBeq]
    | cons y ys =>
      simp only [jsonListBeq, Bool.and_eq_true, jsonBeq_iff x y, jsonListBeq_iff xs ys,
        List.cons.injEq]
termination_by a _ => sizeOf a

theorem jsonFieldsBeq_iff : ∀ a b : List (String × Json), jsonFieldsBeq a b = true ↔ a = b
  | [], b => by cases b <;> simp [jsonFieldsBeq]
  | (k, v) :: xs, b => by
    cases b with
    | nil => simp [jsonFieldsBeq]
    | cons y ys =>
      obtain ⟨l, w⟩ := y
      simp only [jsonFieldsBeq, Bool.and_eq_true, jsonBeq_iff v w, jsonFieldsBeq_iff xs ys,
        List.cons.injEq, beq_iff_eq, Prod.mk.injEq, and_assoc]
termination_by a _ => sizeOf a

end

instance : DecidableEq Json := fun a b =>
  if h : jsonBeq a b = true then isTrue ((jsonBeq_iff a b).mp h)
  else isFalse (fun e => h ((jsonBeq_iff a b).mpr e))

/-- Whitespace characters recognised by Python's JSON parser between tokens. -/
def isJsonWs (c : Char) : Bool :=
  c = ' ' || c = '\t' || c = '\n' || c = '\r'

/-- Whitespace stripped by Python's `str.strip` / `str.rstrip` (ASCII part). -/
def isPyWs (c : Char) : Bool :=
  c = ' ' || c = '\t' || c = '\n' || c = '\r' || c = '\x0b' || c = '\x0c'

/-- ASCII decimal digit. -/
def isDigit (c : Char) : Bool :=
  48 ≤ c.toNat && c.toNat ≤ 57

/-- Decimal rendering with explicit fuel (the recursion divides by ten, so
any fuel above the number itself is plentiful). -/
def natDigitsAux : Nat → Nat → List Char
  | 0, _ => []
  | fuel + 1, n =>
    if n < 10 then [Char.ofNat (48 + n % 10)]
    else natDigitsAux fuel (n / 10) ++ [Char.ofNat (48 + n % 10)]

/-- Decimal rendering of a natural number, most significant digit first. -/
def natDigits (n : Nat) : List Char :=
  natDigitsAux (n + 1) n

/-- Decimal rendering of an integer, as Python prints it. -/
def intChars (n : Int) : List Char :=
  if n < 0 then '-' :: natDigits n.natAbs else natDigits n.natAbs

/-- Lowercase hexadecimal digit. -/
def hexDigitChar (n : Nat) : Char :=
  if n < 10 then Char.ofNat (48 + n) else Char.ofNat (87 + n)

/-- The characters Python's JSON encoder (with `ensure_ascii=False`) emits for
one character of a string: `"` and `\` and the common control characters get
two-character escapes, other control characters get `\u00xx`, and everything
else is passed through. -/
def escChar (c : Char) : List Char :=
  if c = '"' then ['\\', '"']
  else if c = '\\' then ['\\', '\\']
  else if c = '\n' then ['\\', 'n']
  else if c = '\t' then ['\\', 't']
  else if c = '\r' then ['\\', 'r']
  else if c.toNat = 8 then ['\\', 'b']
  else if c.toNat = 12 then ['\\', 'f']
  else if c.toNat < 32 then
    ['\\', 'u', '0', '0', hexDigitChar (c.toNat / 16), hexDigitChar (c.toNat % 16)]
  else [c]

/-- Escaped body of a JSON string literal. -/
def escStr (s : String) : List Char :=
  (s.data.map escChar).flatten

/-- Indentation emitted by `json.dump(..., indent=2)` at nesting level `lvl`. -/
def padC (lvl : Nat) : List Char :=
  List.replicate (2 * lvl) ' '

mutual

/-- The exact character stream `json.dump(value, f, indent=2,
ensure_ascii=False)` produces when the surrounding context is at nesting
level `lvl` (`lvl = 0` for a top-level dump). -/
def dumpChars (lvl : Nat) : Json → List Char
  | Json.null => ['n', 'u', 'l', 'l']
  | Json.bool true => ['t', 'r', 'u', 'e']
  | Json.bool false => ['f', 'a', 'l', 's', 'e']
  | Json.num n => intChars n
  | Json.str s => '"' :: (escStr s ++ ['"'])
  | Json.arr [] => ['[', ']']
  | Json.arr (x :: xs) =>
    '[' :: '\n' :: (dumpItems lvl (x :: xs) ++ ('\n' :: (padC lvl ++ [']'])))
  | Json.obj [] => ['\x7b', '\x7d']
  | Json.obj (f :: fs) =>
    '\x7b' :: '\n' :: (dumpFields lvl (f :: fs) ++ ('\n' :: (padC lvl ++ ['\x7d'])))

/-- Array elements, each on its own line at level `lvl + 1`, separated by
commas. -/
def dumpItems (lvl : Nat) : List Json → List Char
  | [] => []
  | [x] => padC (lvl + 1) ++ dumpChars (lvl + 1) x
  | x :: y :: ys =>
    padC (lvl + 1) ++ dumpChars (lvl + 1) x ++ (',' :: '\n' :: dumpItems lvl (y :: ys))

/-- Object members, each on its own line at level `lvl + 1`, rendered as
`"key": value` and separated by commas. -/
def dumpFields (lvl : Nat) : List (String × Json) → List Char
  | [] => []
  | [(k, v)] =>
    padC (lvl + 1) ++ ('"' :: (escStr k ++ ('"' :: ':' :: ' ' :: dumpChars (lvl + 1) v)))
  | (k, v) :: g :: gs =>
    padC (lvl + 1) ++ ('"' :: (escStr k ++ ('"' :: ':' :: ' ' :: dumpChars (lvl + 1) v))) ++
      (',' :: '\n' :: dumpFields lvl (g :: gs))

end

/-- String form of a top-level `json.dump(value, f, indent=2)`. -/
def dumpStr (v : Json) : String :=
  String.mk (dumpChars 0 v)

/-! ## A strict JSON parser, modelling `json.load` / `json.loads`

The parser is strict in the ways Python's is: no trailing commas, literals
spelled exactly, a document must be a single value followed only by
whitespace.  It is written with explicit fuel so that all recursions are
structural; `parseDoc` supplies more than enough fuel for its input. -/

/-- Drop leading JSON whitespace. -/
def skipWs : List Char → List Char
  | [] => []
  | c :: rest => if isJsonWs c then skipWs rest else c :: rest

/-- Numeric value of one ASCII digit. -/
def digitVal (c : Char) : Nat :=
  c.toNat - 48

/-- Consume a maximal run of decimal digits, accumulating their value. -/
def readDigits : List Char → Nat → Nat × List Char
  | [], acc => (acc, [])
  | c :: cs, acc =>
    if isDigit c then readDigits cs (acc * 10 + digitVal c) else (acc, c :: cs)

/-- Value of a hexadecimal digit character, if it is one. -/
def hexVal (c : Char) : Option Nat :=
  if 48 ≤ c.toNat && c.toNat ≤ 57 then some (c.toNat - 48)
  else if 97 ≤ c.toNat && c.toNat ≤ 102 then some (c.toNat - 87)
  else if 65 ≤ c.toNat && c.toNat ≤ 70 then some (c.toNat - 55)
  else none

/-- Resolve a single-character JSON escape. -/
def unescapeChar (e : Char) : Option Char :=
  if e = '"' then some '"'
  else if e = '\\' then some '\\'
  else if e = '/' then some '/'
  else if e = 'n' then some '\n'
  else if e = 't' then some '\t'
  else if e = 'r' then some '\r'
  else if e = 'b' then some (Char.ofNat 8)
  else if e = 'f' then some (Char.ofNat 12)
  else none

/-- Parse the body of a JSON string literal (the opening quote already
consumed), returning the decoded characters and the input after the closing
quote. -/
def parseStrBody : List Char → Option (List Char × List Char)
  | [] => none
  | c :: rest =>
    if c = '"' then some ([], rest)
    else if c = '\\' then
      match rest with
      | [] => none
      | e :: rest2 =>
        if e = 'u' then
          match rest2 with
          | h1 :: h2 :: h3 :: h4 :: rest3 =>
            match hexVal h1, hexVal h2, hexVal h3, hexVal h4 with
            | some a, some b, some c1, some d =>
              match parseStrBody rest3 with
              | some (s, r) => some (Char.ofNat (((a * 16 + b) * 16 + c1) * 16 + d) :: s, r)
              | none => none
            | _, _, _, _ => none
          | _ => none
        else
          match unescapeChar e with
          | some u =>
            match parseStrBody rest2 with
            | some (s, r) => some (u :: s, r)
            | none => none
          | none => none
    else
      match parseStrBody rest with
      | some (s, r) => some (c :: s, r)
      | none => none

mutual

/-- Parse one JSON value.  `cs` starts at the value's first character. -/
def parseVal : Nat → List Char → Option (Json × List Char)
  | 0, _ => none
  | _ + 1, [] => none
  | fuel + 1, c :: rest =>
    if c = '\x7b' then
      match skipWs rest with
      | [] => none
      | h :: t =>
        if h = '\x7d' then some (Json.obj [], t)
        else
          match parseMembers fuel (h :: t) with
          | some (fs, r2) => some (Json.obj fs, r2)
          | none => none
    else if c = '[' then
      match skipWs rest with
      | [] => none
      | h :: t =>
        if h = ']' then some (Json.arr [], t)
        else
          match parseItems fuel (h :: t) with
          | some (xs, r2) => some (Json.arr xs, r2)
          | none => none
    else if c = '"' then
      match parseStrBody rest with
      | some (s, r2) => some (Json.str (String.mk s), r2)
      | none => none
    else if c = 't' then
      match rest with
      | 'r' :: 'u' :: 'e' :: r2 => some (Json.bool true, r2)
      | _ => none
    else if c = 'f' then
      match rest with
      | 'a' :: 'l' :: 's' :: 'e' :: r2 => some (Json.bool false, r2)
      | _ => none
    else if c = 'n' then
      match rest with
      | 'u' :: 'l' :: 'l' :: r2 => some (Json.null, r2)
      | _ => none
    else if c = '-' then
      match rest with
      | [] => none
      | d :: _ =>
        if isDigit d then
          let p := readDigits rest 0
          some (Json.num (-(p.1 : Int)), p.2)
        else none
    else if isDigit c then
      let p := readDigits (c :: rest) 0
      some (Json.num (p.1 : Int), p.2)
    else none

/-- Parse one or more array elements, up to and including the closing `]`. -/
def parseItems : Nat → List Char → Option (List Json × List Char)
  | 0, _ => none
  | fuel + 1, cs =>
    match parseVal fuel cs with
    | none => none
    | some (v, r1) =>
      match skipWs r1 with
      | [] => none
      | c :: r2 =>
        if c = ',' then
          match parseItems fuel (skipWs r2) with
          | none => none
          | some (vs, r3) => some (v :: vs, r3)
        else if c = ']' then some ([v], r2)
        else none

/-- Parse one or more object members, up to and including the closing brace. -/
def parseMembers : Nat → List Char → Option (List (String × Json) × List Char)
  | 0, _ => none
  | fuel + 1, cs =>
    match cs with
    | [] => none
    | c :: rest =>
      if c = '"' then
        match parseStrBody rest with
        | none => none
        | some (k, r1) =>
          match skipWs r1 with
          | [] => none
          | c2 :: r2 =>
            if c2 = ':' then
              match parseVal fuel (skipWs r2) with
              | none => none
              | some (v, r3) =>
                match skipWs r3 with
                | [] => none
                | c3 :: r4 =>
                  if c3 = ',' then
                    match parseMembers fuel (skipWs r4) with
                    | none => none
                    | some (fs, r5) => some ((String.mk k, v) :: fs, r5)
                  else if c3 = '\x7d' then some ([(String.mk k, v)], r4)
                  else none
            else none
      else none

end

/-- Parse a whole document, as `json.load` does: one value, optionally
surrounded by whitespace, nothing else. -/
def parseDoc (content : String) : Option Json :=
  let cs := skipWs content.data
  match parseVal (cs.length + 1) cs with
  | some (v, rest) => if skipWs rest = [] then some v else none
  | none => none

/-! ## Print/parse round trip, part 1: numbers -/

/-- Does the input begin with a decimal digit?  (`readDigits` would consume
from such an input.) -/
def digitStart : List Char → Bool
  | [] => false
  | c :: _ => isDigit c

theorem charOfNat_toNat (c : Char) (h : c.toNat < 55296) : Char.ofNat c.toNat = c := by
  have hv : c.toNat.isValidChar := Or.inl h
  apply Char.ext
  simp only [Char.ofNat, hv, dite_true, Char.ofNatAux]
  refine UInt32.ext ?_
  rfl

theorem isDigit_ofDigit (n : Nat) : isDigit (Char.ofNat (48 + n % 10)) = true := by
  have h : n % 10 < 10 := Nat.mod_lt _ (by omega)
  set m := n % 10 with hm
  interval_cases m <;> decide

theorem charToNat_ofNat (m : Nat) (h : m < 55296) : (Char.ofNat m).toNat = m := by
  have hval : m.isValidChar := Or.inl h
  simp only [Char.ofNat, hval, dite_true, Char.ofNatAux, Char.toNat]
  rfl

theorem natDigitsAux_digit (fuel : Nat) :
    ∀ (n : Nat), ∀ c ∈ natDigitsAux fuel n, isDigit c = true := by
  induction fuel with
  | zero => intro n c hc; simp [natDigitsAux] at hc
  | succ fuel ih =>
    intro n c hc
    simp only [natDigitsAux] at hc
    by_cases h : n < 10
    · rw [if_pos h] at hc
      simp only [List.mem_singleton] at hc
      subst hc
      exact isDigit_ofDigit n
    · rw [if_neg h] at hc
      rcases List.mem_append.mp hc with hc | hc
      · exact ih _ c hc
      · simp only [List.mem_singleton] at hc
        subst hc
        exact isDigit_ofDigit n

theorem natDigitsAux_ne_nil {fuel n : Nat} (h : 0 < fuel) : natDigitsAux fuel n ≠ [] := by
  cases fuel with
  | zero => omega
  | succ fuel =>
    simp only [natDigitsAux]
    by_cases hn : n < 10
    · rw [if_pos hn]; simp
    · rw [if_neg hn]; simp

theorem natDigits_cons (n : Nat) :
    ∃ c t, natDigits n = c :: t ∧ isDigit c = true := by
  have hne : natDigits n ≠ [] := natDigitsAux_ne_nil (by omega)
  obtain ⟨c, t, h⟩ : ∃ c t, natDigits n = c :: t := by
    cases hd : natDigits n with
    | nil => exact absurd hd hne
    | cons c t => exact ⟨c, t, rfl⟩
  refine ⟨c, t, h, natDigitsAux_digit (n + 1) n c ?_⟩
  rw [show natDigitsAux (n + 1) n = natDigits n from rfl, h]
  simp

theorem readDigits_of_not_digit {cs : List Char} (h : digitStart cs = false) (acc : Nat) :
    readDigits cs acc = (acc, cs) := by
  cases cs with
  | nil => rfl
  | cons c t =>
    simp only [digitStart] at h
    simp [readDigits, h]

theorem readDigits_natDigitsAux {fuel : Nat} :
    ∀ {n : Nat} (tail : List Char) (acc : Nat), n < fuel →
      readDigits (natDigitsAux fuel n ++ tail) acc
        = readDigits tail (acc * 10 ^ (natDigitsAux fuel n).length + n) := by
  induction fuel with
  | zero => intro n tail acc h; omega
  | succ fuel ih =>
    intro n tail acc h
    by_cases hn : n < 10
    · simp only [natDigitsAux, if_pos hn, List.singleton_append, List.length_singleton]
      have hd : isDigit (Char.ofNat (48 + n % 10)) = true := isDigit_ofDigit n
      simp only [readDigits, hd, if_pos]
      have hv : digitVal (Char.ofNat (48 + n % 10)) = n := by
        have hlt : n % 10 < 10 := Nat.mod_lt _ (by omega)
        have hmod : n % 10 = n := Nat.mod_eq_of_lt hn
        simp only [digitVal]
        rw [hmod]
        have : (Char.ofNat (48 + n)).toNat = 48 + n := charToNat_ofNat _ (by omega)
        omega
      rw [hv]
      ring_nf
    · simp only [natDigitsAux, if_neg hn, List.append_assoc, List.singleton_append,
        List.length_append, List.length_singleton]
      have hn10 : n / 10 < fuel := by
        have hlt : n / 10 < n := Nat.div_lt_self (by omega) (by omega)
        omega
      rw [ih _ _ hn10]
      have hd : isDigit (Char.ofNat (48 + n % 10)) = true := isDigit_ofDigit n
      simp only [readDigits, hd, if_pos]
      have hv : digitVal (Char.ofNat (48 + n % 10)) = n % 10 := by
        have hlt : n % 10 < 10 := Nat.mod_lt _ (by omega)
        simp only [digitVal]
        have : (Char.ofNat (48 + n % 10)).toNat = 48 + n % 10 := charToNat_ofNat _ (by omega)
        omega
      rw [hv]
      have harith : (acc * 10 ^ ((natDigitsAux fuel (n / 10)).length + 1) + n) =
          (acc * 10 ^ (natDigitsAux fuel (n / 10)).length + n / 10) * 10 + n % 10 := by
        rw [pow_succ]
        have := Nat.div_add_mod n 10
        ring_nf
        omega
      rw [harith]

theorem readDigits_natDigits (n : Nat) {tail : List Char} (h : digitStart tail = false) :
    readDigits (natDigits n ++ tail) 0 = (n, tail) := by
  rw [show natDigits n = natDigitsAux (n + 1) n from rfl]
  rw [readDigits_natDigitsAux tail 0 (by omega)]
  rw [readDigits_of_not_digit h]
  simp

/-! ## Print/parse round trip, part 2: strings and whitespace -/

/-- Escaped rendering of a character list (list form of `escStr`). -/
def escList (l : List Char) : List Char :=
  (l.map escChar).flatten

theorem escStr_def (s : String) : escStr s = escList s.data :=
  rfl

theorem string_mk_data (s : String) : String.mk s.data = s := by
  cases s
  rfl

theorem hexVal_hexDigitChar {d : Nat} (h : d < 16) : hexVal (hexDigitChar d) = some d := by
  interval_cases d <;> decide

theorem parseStrBody_quote (rest : List Char) : parseStrBody ('"' :: rest) = some ([], rest) := by
  rw [parseStrBody.eq_def]
  simp only []
  rw [if_pos trivial]

theorem parseStrBody_esc_quote (t : List Char) :
    parseStrBody ('\\' :: '"' :: t)
      = (match parseStrBody t with
         | some (s, r) => some ('"' :: s, r)
         | none => none) := by
  rw [parseStrBody.eq_def]
  simp only []
  rw [if_neg (by decide), if_pos trivial]
  rw [if_neg (by decide), show unescapeChar '"' = some '"' from rfl]

theorem parseStrBody_esc_bs (t : List Char) :
    parseStrBody ('\\' :: '\\' :: t)
      = (match parseStrBody t with
         | some (s, r) => some ('\\' :: s, r)
         | none => none) := by
  rw [parseStrBody.eq_def]
  simp only []
  rw [if_neg (by decide), if_pos trivial]
  rw [if_neg (by decide), show unescapeChar '\\' = some '\\' from rfl]

theorem parseStrBody_esc_n (t : List Char) :
    parseStrBody ('\\' :: 'n' :: t)
      = (match parseStrBody t with
         | some (s, r) => some ('\n' :: s, r)
         | none => none) := by
  rw [parseStrBody.eq_def]
  simp only []
  rw [if_neg (by decide), if_pos trivial]
  rw [if_neg (by decide), show unescapeChar 'n' = some '\n' from rfl]

theorem parseStrBody_esc_t (t : List Char) :
    parseStrBody ('\\' :: 't' :: t)
      = (match parseStrBody t with
         | some (s, r) => some ('\t' :: s, r)
         | none => none) := by
  rw [parseStrBody.eq_def]
  simp only []
  rw [if_neg (by decide), if_pos trivial]
  rw [if_neg (by decide), show unescapeChar 't' = some '\t' from rfl]

theorem parseStrBody_esc_r (t : List Char) :
    parseStrBody ('\\' :: 'r' :: t)
      = (match parseStrBody t with
         | some (s, r) => some ('\r' :: s, r)
         | none => none) := by
  rw [parseStrBody.eq_def]
  simp only []
  rw [if_neg (by decide), if_pos trivial]
  rw [if_neg (by decide), show unescapeChar 'r' = some '\r' from rfl]

theorem parseStrBody_esc_b (t : List Char) :
    parseStrBody ('\\' :: 'b' :: t)
      = (match parseStrBody t with
         | some (s, r) => some (Char.ofNat 8 :: s, r)
         | none => none) := by
  rw [parseStrBody.eq_def]
  simp only []
  rw [if_neg (by decide), if_pos trivial]
  rw [if_neg (by decide), show unescapeChar 'b' = some (Char.ofNat 8) from rfl]

theorem parseStrBody_esc_f (t : List Char) :
    parseStrBody ('\\' :: 'f' :: t)
      = (match parseStrBody t with
         | some (s, r) => some (Char.ofNat 12 :: s, r)
         | none => none) := by
  rw [parseStrBody.eq_def]
  simp only []
  rw [if_neg (by decide), if_pos trivial]
  rw [if_neg (by decide), show unescapeChar 'f' = some (Char.ofNat 12) from rfl]

theorem parseStrBody_esc_u (d1 d2 : Char) (t : List Char) :
    parseStrBody ('\\' :: 'u' :: '0' :: '0' :: d1 :: d2 :: t)
      = (match hexVal d1, hexVal d2 with
         | some a, some b =>
           (match parseStrBody t with
            | some (s, r) => some (Char.ofNat (((0 * 16 + 0) * 16 + a) * 16 + b) :: s, r)
            | none => none)
         | _, _ => none) := by
  rw [parseStrBody.eq_def]
  simp only []
  rw [if_neg (by decide), if_pos trivial]
  rw [if_pos trivial, show hexVal '0' = some 0 from rfl]
  cases hd1 : hexVal d1 with
  | none => rfl
  | some a =>
    cases hd2 : hexVal d2 with
    | none => rfl
    | some b => rfl

theorem parseStrBody_other {c : Char} (h1 : ¬ c = '"') (h2 : ¬ c = '\\') (rest : List Char) :
    parseStrBody (c :: rest)
      = (match parseStrBody rest with
         | some (s, r) => some (c :: s, r)
         | none => none) := by
  rw [parseStrBody.eq_def]
  simp only []
  rw [if_neg h1, if_neg h2]

theorem parseStrBody_escList : ∀ (l : List Char) (rest : List Char),
    parseStrBody (escList l ++ ('"' :: rest)) = some (l, rest) := by
  intro l
  induction l with
  | nil =>
    intro rest
    show parseStrBody ('"' :: rest) = some ([], rest)
    exact parseStrBody_quote rest
  | cons c cs ih =>
    intro rest
    have hsplit : escList (c :: cs) = escChar c ++ escList cs := by
      simp [escList]
    rw [hsplit, List.append_assoc]
    by_cases h1 : c = '"'
    · subst h1
      rw [show escChar '"' = ['\\', '"'] from rfl]
      rw [List.cons_append, List.cons_append, List.nil_append, parseStrBody_esc_quote, ih rest]
    · by_cases h2 : c = '\\'
      · subst h2
        rw [show escChar '\\' = ['\\', '\\'] from by decide]
        rw [List.cons_append, List.cons_append, List.nil_append, parseStrBody_esc_bs, ih rest]
      · by_cases h3 : c = '\n'
        · subst h3
          rw [show escChar '\n' = ['\\', 'n'] from by decide]
          rw [List.cons_append, List.cons_append, List.nil_append, parseStrBody_esc_n, ih rest]
        · by_cases h4 : c = '\t'
          · subst h4
            rw [show escChar '\t' = ['\\', 't'] from by decide]
            rw [List.cons_append, List.cons_append, List.nil_append, parseStrBody_esc_t,
              ih rest]
          · by_cases h5 : c = '\r'
            · subst h5
              rw [show escChar '\r' = ['\\', 'r'] from by decide]
              rw [List.cons_append, List.cons_append, List.nil_append, parseStrBody_esc_r,
                ih rest]
            · by_cases h6 : c.toNat = 8
              · have hcb : c = Char.ofNat 8 := by
                  rw [show (8 : Nat) = c.toNat from h6.symm]
                  exact (charOfNat_toNat c (by omega)).symm
                have hc : escChar c = ['\\', 'b'] := by
                  rw [hcb]; decide
                rw [hc, hcb]
                rw [List.cons_append, List.cons_append, List.nil_append, parseStrBody_esc_b,
                  ih rest]
              · by_cases h7 : c.toNat = 12
                · have hcb : c = Char.ofNat 12 := by
                    rw [show (12 : Nat) = c.toNat from h7.symm]
                    exact (charOfNat_toNat c (by omega)).symm
                  have hc : escChar c = ['\\', 'f'] := by
                    rw [hcb]; decide
                  rw [hc, hcb]
                  rw [List.cons_append, List.cons_append, List.nil_append, parseStrBody_esc_f,
                    ih rest]
                · by_cases h8 : c.toNat < 32
                  · have hc : escChar c =
                        ['\\', 'u', '0', '0', hexDigitChar (c.toNat / 16),
                          hexDigitChar (c.toNat % 16)] := by
                      simp [escChar, h1, h2, h3, h4, h5, h6, h7, h8]
                    rw [hc]
                    simp only [List.cons_append, List.nil_append]
                    rw [parseStrBody_esc_u, hexVal_hexDigitChar (by omega),
                      hexVal_hexDigitChar (by omega), ih rest]
                    simp only []
                    have harith : ((0 * 16 + 0) * 16 + c.toNat / 16) * 16 + c.toNat % 16
                        = c.toNat := by
                      have := Nat.div_add_mod c.toNat 16
                      omega
                    rw [harith, charOfNat_toNat c (by omega)]
                  · have hc : escChar c = [c] := by
                      simp [escChar, h1, h2, h3, h4, h5, h6, h7, h8]
                    rw [hc]
                    simp only [List.cons_append, List.nil_append]
                    rw [parseStrBody_other h1 h2, ih rest]

theorem parseStrBody_escStr (s : String) (rest : List Char) :
    parseStrBody (escStr s ++ ('"' :: rest)) = some (s.data, rest) := by
  rw [escStr_def]
  exact parseStrBody_escList s.data rest

theorem skipWs_cons_ws {c : Char} (h : isJsonWs c = true) (cs : List Char) :
    skipWs (c :: cs) = skipWs cs := by
  simp [skipWs, h]

theorem skipWs_cons_not {c : Char} (h : isJsonWs c = false) (cs : List Char) :
    skipWs (c :: cs) = c :: cs := by
  simp [skipWs, h]

theorem skipWs_pad (n : Nat) (cs : List Char) : skipWs (padC n ++ cs) = skipWs cs := by
  unfold padC
  induction 2 * n with
  | zero => simp
  | succ k ih =>
    rw [List.replicate_succ, List.cons_append, skipWs_cons_ws (by decide)]
    exact ih

/-- Every printed value starts with a character that is not whitespace and
not a closing delimiter. -/
theorem dump_head (lvl : Nat) (v : Json) :
    ∃ c t, dumpChars lvl v = c :: t ∧ isJsonWs c = false ∧ c ≠ '\x7d' ∧ c ≠ ']' := by
  cases v with
  | null => refine ⟨'n', _, rfl, ?_, ?_, ?_⟩ <;> decide
  | bool b =>
    cases b with
    | true => refine ⟨'t', _, rfl, ?_, ?_, ?_⟩ <;> decide
    | false => refine ⟨'f', _, rfl, ?_, ?_, ?_⟩ <;> decide
  | num n =>
    show ∃ c t, intChars n = c :: t ∧ _
    unfold intChars
    by_cases hn : n < 0
    · rw [if_pos hn]
      exact ⟨'-', _, rfl, by decide, by decide, by decide⟩
    · rw [if_neg hn]
      obtain ⟨c, t, hct, hd⟩ := natDigits_cons n.natAbs
      have h48 : 48 ≤ c.toNat ∧ c.toNat ≤ 57 := by
        simpa [isDigit] using hd
      refine ⟨c, t, hct, ?_, ?_, ?_⟩
      · simp only [isJsonWs, Bool.or_eq_false_iff, decide_eq_false_iff_not]
        refine ⟨⟨⟨?_, ?_⟩, ?_⟩, ?_⟩ <;> intro he <;> rw [he] at h48 <;> revert h48 <;> decide
      · intro he; rw [he] at h48; revert h48; decide
      · intro he; rw [he] at h48; revert h48; decide
  | str s => refine ⟨'"', _, rfl, ?_, ?_, ?_⟩ <;> decide
  | arr l =>
    cases l with
    | nil => refine ⟨'[', _, rfl, ?_, ?_, ?_⟩ <;> decide
    | cons x xs => refine ⟨'[', _, rfl, ?_, ?_, ?_⟩ <;> decide
  | obj l =>
    cases l with
    | nil => refine ⟨'\x7b', _, rfl, ?_, ?_, ?_⟩ <;> decide
    | cons f fs => refine ⟨'\x7b', _, rfl, ?_, ?_, ?_⟩ <;> decide

theorem skipWs_dump (lvl : Nat) (v : Json) (rest : List Char) :
    skipWs (dumpChars lvl v ++ rest) = dumpChars lvl v ++ rest := by
  obtain ⟨c, t, hct, hws, _, _⟩ := dump_head lvl v
  rw [hct, List.cons_append, skipWs_cons_not hws]

/-! ## Print/parse round trip, part 3: fuel accounting and input shapes -/

mutual

/-- Fuel with which `parseVal` certainly succeeds on the printed form of `v`. -/
def fuelNeed : Json → Nat
  | Json.null => 1
  | Json.bool _ => 1
  | Json.num _ => 1
  | Json.str _ => 1
  | Json.arr [] => 1
  | Json.arr (x :: xs) => 1 + itemsNeed (x :: xs)
  | Json.obj [] => 1
  | Json.obj (f :: fs) => 1 + fieldsNeed (f :: fs)

/-- Fuel with which `parseItems` certainly succeeds on printed elements. -/
def itemsNeed : List Json → Nat
  | [] => 0
  | x :: xs => 1 + max (fuelNeed x) (itemsNeed xs)

/-- Fuel with which `parseMembers` certainly succeeds on printed members. -/
def fieldsNeed : List (String × Json) → Nat
  | [] => 0
  | (_, v) :: fs => 1 + max (fuelNeed v) (fieldsNeed fs)

end

theorem fuelNeed_pos (v : Json) : 1 ≤ fuelNeed v := by
  cases v with
  | arr l => cases l <;> simp [fuelNeed]
  | obj l => cases l <;> simp [fuelNeed]
  | null => simp [fuelNeed]
  | bool b => simp [fuelNeed]
  | num n => simp [fuelNeed]
  | str s => simp [fuelNeed]

/-- What follows the printed form of an array element inside `json.dump`
output: either the separator and the next element, or the closing bracket
line, and then `rest`. -/
def restItems (lvl : Nat) : List Json → List Char → List Char
  | [], rest => '\n' :: (padC lvl ++ (']' :: rest))
  | y :: ys, rest =>
    ',' :: '\n' :: (padC (lvl + 1) ++ (dumpChars (lvl + 1) y ++ restItems lvl ys rest))

/-- What follows the printed form of an object member inside `json.dump`
output. -/
def restFields (lvl : Nat) : List (String × Json) → List Char → List Char
  | [], rest => '\n' :: (padC lvl ++ ('\x7d' :: rest))
  | (k2, v2) :: gs, rest =>
    ',' :: '\n' :: (padC (lvl + 1) ++
      ('"' :: (escStr k2 ++ ('"' :: ':' :: ' ' :: (dumpChars (lvl + 1) v2 ++ restFields lvl gs rest)))))

theorem digitStart_restItems (lvl : Nat) (xs : List Json) (rest : List Char) :
    digitStart (restItems lvl xs rest) = false := by
  cases xs <;> simp [restItems, digitStart, isDigit]

theorem digitStart_restFields (lvl : Nat) (fs : List (String × Json)) (rest : List Char) :
    digitStart (restFields lvl fs rest) = false := by
  cases fs with
  | nil => simp [restFields, digitStart, isDigit]
  | cons g gs =>
    obtain ⟨k2, v2⟩ := g
    simp [restFields, digitStart, isDigit]

theorem dumpItems_decomp (lvl : Nat) : ∀ (x : Json) (xs : List Json) (rest : List Char),
    (dumpItems lvl (x :: xs) ++ ('\n' :: (padC lvl ++ [']']))) ++ rest
      = padC (lvl + 1) ++ (dumpChars (lvl + 1) x ++ restItems lvl xs rest) := by
  intro x xs
  induction xs generalizing x with
  | nil =>
    intro rest
    simp [dumpItems, restItems, List.append_assoc]
  | cons y ys ih =>
    intro rest
    have hitems : dumpItems lvl (x :: y :: ys)
        = padC (lvl + 1) ++ dumpChars (lvl + 1) x ++ (',' :: '\n' :: dumpItems lvl (y :: ys)) := by
      simp [dumpItems]
    rw [hitems]
    have hre : restItems lvl (y :: ys) rest
        = ',' :: '\n' :: (padC (lvl + 1) ++ (dumpChars (lvl + 1) y ++ restItems lvl ys rest)) := by
      simp [restItems]
    rw [hre, ← ih y rest]
    simp [List.append_assoc]

theorem dump_arr_cons (lvl : Nat) (x : Json) (xs : List Json) (rest : List Char) :
    dumpChars lvl (Json.arr (x :: xs)) ++ rest
      = '[' :: '\n' :: (padC (lvl + 1) ++ (dumpChars (lvl + 1) x ++ restItems lvl xs rest)) := by
  have hd : dumpChars lvl (Json.arr (x :: xs))
      = '[' :: '\n' :: (dumpItems lvl (x :: xs) ++ ('\n' :: (padC lvl ++ [']']))) := by
    simp [dumpChars]
  rw [hd]
  simp only [List.cons_append]
  rw [dumpItems_decomp]

theorem dumpFields_decomp (lvl : Nat) :
    ∀ (k : String) (v : Json) (fs : List (String × Json)) (rest : List Char),
    (dumpFields lvl ((k, v) :: fs) ++ ('\n' :: (padC lvl ++ ['\x7d']))) ++ rest
      = padC (lvl + 1) ++
          ('"' :: (escStr k ++ ('"' :: ':' :: ' ' :: (dumpChars (lvl + 1) v ++ restFields lvl fs rest)))) := by
  intro k v fs
  induction fs generalizing k v with
  | nil =>
    intro rest
    simp [dumpFields, restFields, List.append_assoc]
  | cons g gs ih =>
    intro rest
    obtain ⟨k2, v2⟩ := g
    have hflds : dumpFields lvl ((k, v) :: (k2, v2) :: gs)
        = padC (lvl + 1) ++ ('"' :: (escStr k ++ ('"' :: ':' :: ' ' :: dumpChars (lvl + 1) v))) ++
            (',' :: '\n' :: dumpFields lvl ((k2, v2) :: gs)) := by
      simp [dumpFields]
    rw [hflds]
    have hre : restFields lvl ((k2, v2) :: gs) rest
        = ',' :: '\n' :: (padC (lvl + 1) ++
            ('"' :: (escStr k2 ++ ('"' :: ':' :: ' ' :: (dumpChars (lvl + 1) v2 ++ restFields lvl gs rest))))) := by
      simp [restFields]
    rw [hre, ← ih k2 v2 rest]
    simp [List.append_assoc]

theorem dump_obj_cons (lvl : Nat) (k : String) (v : Json) (fs : List (String × Json))
    (rest : List Char) :
    dumpChars lvl (Json.obj ((k, v) :: fs)) ++ rest
      = '\x7b' :: '\n' :: (padC (lvl + 1) ++
          ('"' :: (escStr k ++ ('"' :: ':' :: ' ' :: (dumpChars (lvl + 1) v ++ restFields lvl fs rest))))) := by
  have hd : dumpChars lvl (Json.obj ((k, v) :: fs))
      = '\x7b' :: '\n' :: (dumpFields lvl ((k, v) :: fs) ++ ('\n' :: (padC lvl ++ ['\x7d']))) := by
    simp [dumpChars]
  rw [hd]
  simp only [List.cons_append]
  rw [dumpFields_decomp]


/-! ## Print/parse round trip, part 4: `parseVal` dispatch equations -/

theorem parseVal_null (fuel : Nat) (rest : List Char) :
    parseVal (fuel + 1) ('n' :: 'u' :: 'l' :: 'l' :: rest) = some (Json.null, rest) := by
  simp only [parseVal]
  rw [if_neg (by decide), if_neg (by decide), if_neg (by decide), if_neg (by decide),
    if_neg (by decide), if_pos trivial]

theorem parseVal_true (fuel : Nat) (rest : List Char) :
    parseVal (fuel + 1) ('t' :: 'r' :: 'u' :: 'e' :: rest) = some (Json.bool true, rest) := by
  simp only [parseVal]
  rw [if_neg (by decide), if_neg (by decide), if_neg (by decide), if_pos trivial]

theorem parseVal_false (fuel : Nat) (rest : List Char) :
    parseVal (fuel + 1) ('f' :: 'a' :: 'l' :: 's' :: 'e' :: rest)
      = some (Json.bool false, rest) := by
  simp only [parseVal]
  rw [if_neg (by decide), if_neg (by decide), if_neg (by decide), if_neg (by decide),
    if_pos trivial]

theorem parseVal_quote (fuel : Nat) (tail : List Char) :
    parseVal (fuel + 1) ('"' :: tail)
      = (match parseStrBody tail with
         | some (s, r2) => some (Json.str (String.mk s), r2)
         | none => none) := by
  simp only [parseVal]
  rw [if_neg (by decide), if_neg (by decide), if_pos trivial]

theorem parseVal_lbrack (fuel : Nat) (tail : List Char) :
    parseVal (fuel + 1) ('[' :: tail)
      = (match skipWs tail with
         | [] => none
         | h :: t =>
           if h = ']' then some (Json.arr [], t)
           else
             match parseItems fuel (h :: t) with
             | some (xs, r2) => some (Json.arr xs, r2)
             | none => none) := by
  simp only [parseVal]
  rw [if_neg (by decide), if_pos trivial]

theorem parseVal_lbrace (fuel : Nat) (tail : List Char) :
    parseVal (fuel + 1) ('\x7b' :: tail)
      = (match skipWs tail with
         | [] => none
         | h :: t =>
           if h = '\x7d' then some (Json.obj [], t)
           else
             match parseMembers fuel (h :: t) with
             | some (fs, r2) => some (Json.obj fs, r2)
             | none => none) := by
  simp only [parseVal]
  rw [if_pos trivial]

theorem parseVal_neg (fuel : Nat) (rest : List Char) :
    parseVal (fuel + 1) ('-' :: rest)
      = (match rest with
         | [] => none
         | d :: _ =>
           if isDigit d then
             some (Json.num (-((readDigits rest 0).1 : Int)), (readDigits rest 0).2)
           else none) := by
  simp only [parseVal]
  rw [if_neg (by decide), if_neg (by decide), if_neg (by decide), if_neg (by decide),
    if_neg (by decide), if_neg (by decide), if_pos trivial]

theorem parseVal_digit (fuel : Nat) {c : Char} (h : isDigit c = true) (rest : List Char) :
    parseVal (fuel + 1) (c :: rest)
      = some (Json.num ((readDigits (c :: rest) 0).1 : Int), (readDigits (c :: rest) 0).2) := by
  have h48 : 48 ≤ c.toNat ∧ c.toNat ≤ 57 := by
    simpa [isDigit] using h
  simp only [parseVal]
  rw [if_neg ?h1, if_neg ?h2, if_neg ?h3, if_neg ?h4, if_neg ?h5, if_neg ?h6, if_neg ?h7,
    if_pos h]
  case h1 => intro he; rw [he] at h48; revert h48; decide
  case h2 => intro he; rw [he] at h48; revert h48; decide
  case h3 => intro he; rw [he] at h48; revert h48; decide
  case h4 => intro he; rw [he] at h48; revert h48; decide
  case h5 => intro he; rw [he] at h48; revert h48; decide
  case h6 => intro he; rw [he] at h48; revert h48; decide
  case h7 => intro he; rw [he] at h48; revert h48; decide

theorem parseItems_succ (fuel : Nat) (cs : List Char) :
    parseItems (fuel + 1) cs
      = (match parseVal fuel cs with
         | none => none
         | some (v, r1) =>
           match skipWs r1 with
           | [] => none
           | c :: r2 =>
             if c = ',' then
               match parseItems fuel (skipWs r2) with
               | none => none
               | some (vs, r3) => some (v :: vs, r3)
             else if c = ']' then some ([v], r2)
             else none) := by
  simp only [parseItems]

theorem parseMembers_succ (fuel : Nat) (cs : List Char) :
    parseMembers (fuel + 1) cs
      = (match cs with
         | [] => none
         | c :: rest =>
           if c = '"' then
             match parseStrBody rest with
             | none => none
             | some (k, r1) =>
               match skipWs r1 with
               | [] => none
               | c2 :: r2 =>
                 if c2 = ':' then
                   match parseVal fuel (skipWs r2) with
                   | none => none
                   | some (v, r3) =>
                     match skipWs r3 with
                     | [] => none
                     | c3 :: r4 =>
                       if c3 = ',' then
                         match parseMembers fuel (skipWs r4) with
                         | none => none
                         | some (fs, r5) => some ((String.mk k, v) :: fs, r5)
                       else if c3 = '\x7d' then some ([(String.mk k, v)], r4)
                       else none
                   else none
           else none) := by
  simp only [parseMembers]

/-! ## Print/parse round trip, part 5: the main induction -/

theorem parse_dump_aux : ∀ fuel : Nat,
    (∀ (lvl : Nat) (v : Json) (rest : List Char), fuelNeed v ≤ fuel → digitStart rest = false →
        parseVal fuel (dumpChars lvl v ++ rest) = some (v, rest)) ∧
    (∀ (lvl : Nat) (x : Json) (xs : List Json) (rest : List Char),
        itemsNeed (x :: xs) ≤ fuel → digitStart rest = false →
        parseItems fuel (dumpChars (lvl + 1) x ++ restItems lvl xs rest)
          = some (x :: xs, rest)) ∧
    (∀ (lvl : Nat) (k : String) (v : Json) (fs : List (String × Json)) (rest : List Char),
        fieldsNeed ((k, v) :: fs) ≤ fuel → digitStart rest = false →
        parseMembers fuel
          ('"' :: (escStr k ++ ('"' :: ':' :: ' ' ::
            (dumpChars (lvl + 1) v ++ restFields lvl fs rest))))
          = some ((k, v) :: fs, rest)) := by
  intro fuel
  induction fuel with
  | zero =>
    refine ⟨?_, ?_, ?_⟩
    · intro lvl v rest hf _
      have := fuelNeed_pos v
      omega
    · intro lvl x xs rest hn _
      simp [itemsNeed] at hn
    · intro lvl k v fs rest hn _
      simp [fieldsNeed] at hn
  | succ fuel ih =>
    obtain ⟨ihv, ihi, ihm⟩ := ih
    refine ⟨?_, ?_, ?_⟩
    · intro lvl v rest hf hd
      cases v with
      | null =>
        rw [show dumpChars lvl Json.null = ['n', 'u', 'l', 'l'] from by simp [dumpChars]]
        simp only [List.cons_append, List.nil_append]
        exact parseVal_null fuel rest
      | bool b =>
        cases b with
        | false =>
          rw [show dumpChars lvl (Json.bool false) = ['f', 'a', 'l', 's', 'e'] from by
            simp [dumpChars]]
          simp only [List.cons_append, List.nil_append]
          exact parseVal_false fuel rest
        | true =>
          rw [show dumpChars lvl (Json.bool true) = ['t', 'r', 'u', 'e'] from by
            simp [dumpChars]]
          simp only [List.cons_append, List.nil_append]
          exact parseVal_true fuel rest
      | num n =>
        rw [show dumpChars lvl (Json.num n) = intChars n from by simp [dumpChars]]
        obtain ⟨c, t, hct, hcd⟩ := natDigits_cons n.natAbs
        have hrd : readDigits (natDigits n.natAbs ++ rest) 0 = (n.natAbs, rest) :=
          readDigits_natDigits _ hd
        by_cases hn : n < 0
        · rw [show intChars n = '-' :: natDigits n.natAbs from by simp [intChars, hn]]
          simp only [List.cons_append]
          rw [parseVal_neg]
          rw [hct] at hrd ⊢
          simp only [List.cons_append] at hrd ⊢
          rw [hrd]
          simp only [if_pos hcd]
          have hval : -((n.natAbs : Int)) = n := by omega
          rw [hval]
        · rw [show intChars n = natDigits n.natAbs from by simp [intChars, hn]]
          rw [hct] at hrd ⊢
          simp only [List.cons_append] at hrd ⊢
          rw [parseVal_digit fuel hcd, hrd]
          have hval : ((n.natAbs : Int)) = n := by omega
          rw [hval]
      | str s =>
        rw [show dumpChars lvl (Json.str s) = '"' :: (escStr s ++ ['"']) from by
          simp [dumpChars]]
        simp only [List.cons_append, List.append_assoc, List.singleton_append]
        rw [parseVal_quote, parseStrBody_escStr]
        simp [string_mk_data]
      | arr l =>
        cases l with
        | nil =>
          rw [show dumpChars lvl (Json.arr []) = ['[', ']'] from by simp [dumpChars]]
          simp only [List.cons_append, List.nil_append]
          rw [parseVal_lbrack, skipWs_cons_not (by decide)]
          simp
        | cons x xs =>
          rw [dump_arr_cons, parseVal_lbrack, skipWs_cons_ws (by decide), skipWs_pad,
            skipWs_dump]
          obtain ⟨c, t, hct, hws, hbr, hbk⟩ := dump_head (lvl + 1) x
          have hitems : parseItems fuel (dumpChars (lvl + 1) x ++ restItems lvl xs rest)
              = some (x :: xs, rest) := by
            have hnx : itemsNeed (x :: xs) ≤ fuel := by
              simp only [fuelNeed] at hf
              omega
            exact ihi lvl x xs rest hnx hd
          rw [hct] at hitems ⊢
          simp only [List.cons_append] at hitems ⊢
          rw [if_neg hbk, hitems]
      | obj l =>
        cases l with
        | nil =>
          rw [show dumpChars lvl (Json.obj []) = ['\x7b', '\x7d'] from by simp [dumpChars]]
          simp only [List.cons_append, List.nil_append]
          rw [parseVal_lbrace, skipWs_cons_not (by decide)]
          simp
        | cons f fs =>
          obtain ⟨k, v⟩ := f
          rw [dump_obj_cons, parseVal_lbrace, skipWs_cons_ws (by decide), skipWs_pad,
            skipWs_cons_not (by decide)]
          have hmem : parseMembers fuel
              ('"' :: (escStr k ++ ('"' :: ':' :: ' ' ::
                (dumpChars (lvl + 1) v ++ restFields lvl fs rest))))
              = some ((k, v) :: fs, rest) := by
            have hnf : fieldsNeed ((k, v) :: fs) ≤ fuel := by
              simp only [fuelNeed] at hf
              omega
            exact ihm lvl k v fs rest hnf hd
          simp only []
          rw [if_neg (by decide), hmem]
    · intro lvl x xs rest hn hd
      have hmax : max (fuelNeed x) (itemsNeed xs) ≤ fuel := by
        simp only [itemsNeed] at hn
        omega
      have hfx : fuelNeed x ≤ fuel := le_trans (Nat.le_max_left _ _) hmax
      rw [parseItems_succ]
      rw [ihv (lvl + 1) x (restItems lvl xs rest) hfx (digitStart_restItems lvl xs rest)]
      simp only []
      cases xs with
      | nil =>
        simp only [restItems]
        rw [skipWs_cons_ws (by decide), skipWs_pad, skipWs_cons_not (by decide)]
        simp
      | cons y ys =>
        simp only [restItems]
        rw [skipWs_cons_not (by decide)]
        simp only []
        rw [if_pos trivial]
        rw [skipWs_cons_ws (by decide), skipWs_pad, skipWs_dump]
        have hny : itemsNeed (y :: ys) ≤ fuel := le_trans (Nat.le_max_right _ _) hmax
        rw [ihi lvl y ys rest hny hd]
    · intro lvl k v fs rest hn hd
      have hmax : max (fuelNeed v) (fieldsNeed fs) ≤ fuel := by
        simp only [fieldsNeed] at hn
        omega
      have hfv : fuelNeed v ≤ fuel := le_trans (Nat.le_max_left _ _) hmax
      rw [parseMembers_succ]
      simp only []
      rw [if_pos trivial]
      rw [parseStrBody_escStr]
      simp only []
      rw [skipWs_cons_not (by decide)]
      simp only []
      rw [if_pos trivial]
      rw [skipWs_cons_ws (by decide), skipWs_dump]
      rw [ihv (lvl + 1) v (restFields lvl fs rest) hfv (digitStart_restFields lvl fs rest)]
      simp only []
      cases fs with
      | nil =>
        simp only [restFields]
        rw [skipWs_cons_ws (by decide), skipWs_pad, skipWs_cons_not (by decide)]
        simp [string_mk_data]
      | cons g gs =>
        obtain ⟨k2, v2⟩ := g
        simp only [restFields]
        rw [skipWs_cons_not (by decide)]
        simp only []
        rw [if_pos trivial]
        rw [skipWs_cons_ws (by decide), skipWs_pad, skipWs_cons_not (by decide)]
        have hn2 : fieldsNeed ((k2, v2) :: gs) ≤ fuel := le_trans (Nat.le_max_right _ _) hmax
        rw [ihm lvl k2 v2 gs rest hn2 hd, string_mk_data]

theorem natDigits_length_pos (n : Nat) : 1 ≤ (natDigits n).length := by
  obtain ⟨c, t, hct, _⟩ := natDigits_cons n
  rw [hct]
  simp

mutual

theorem fuelNeed_le_dumpLen : ∀ (lvl : Nat) (v : Json), fuelNeed v ≤ (dumpChars lvl v).length
  | lvl, Json.null => by simp [fuelNeed, dumpChars]
  | lvl, Json.bool b => by cases b <;> simp [fuelNeed, dumpChars]
  | lvl, Json.num n => by
    have h := natDigits_length_pos n.natAbs
    simp only [fuelNeed, dumpChars]
    unfold intChars
    by_cases hn : n < 0
    · rw [if_pos hn]
      simp only [List.length_cons]
      omega
    · rw [if_neg hn]
      exact h
  | lvl, Json.str s => by simp [fuelNeed, dumpChars]
  | lvl, Json.arr [] => by simp [fuelNeed, dumpChars]
  | lvl, Json.arr (x :: xs) => by
    have h := itemsNeed_le_dumpLen lvl x xs
    simp only [fuelNeed, dumpChars, List.length_cons, List.length_append]
    omega
  | lvl, Json.obj [] => by simp [fuelNeed, dumpChars]
  | lvl, Json.obj (f :: fs) => by
    have h := fieldsNeed_le_dumpLen lvl f fs
    simp only [fuelNeed, dumpChars, List.length_cons, List.length_append]
    omega
termination_by lvl v => sizeOf v

theorem itemsNeed_le_dumpLen : ∀ (lvl : Nat) (x : Json) (xs : List Json),
    itemsNeed (x :: xs) ≤ (dumpItems lvl (x :: xs)).length
  | lvl, x, [] => by
    have h := fuelNeed_le_dumpLen (lvl + 1) x
    have hp : (padC (lvl + 1)).length = 2 * (lvl + 1) := by simp [padC]
    simp only [itemsNeed, dumpItems, List.length_append]
    simp
    omega
  | lvl, x, y :: ys => by
    have h1 := fuelNeed_le_dumpLen (lvl + 1) x
    have h2 := itemsNeed_le_dumpLen lvl y ys
    have hmax : max (fuelNeed x) (itemsNeed (y :: ys))
        ≤ (dumpChars (lvl + 1) x).length + (dumpItems lvl (y :: ys)).length :=
      Nat.max_le.mpr ⟨by omega, by omega⟩
    have hp : (padC (lvl + 1)).length = 2 * (lvl + 1) := by simp [padC]
    rw [itemsNeed]
    rw [show dumpItems lvl (x :: y :: ys)
        = padC (lvl + 1) ++ dumpChars (lvl + 1) x ++ (',' :: '\n' :: dumpItems lvl (y :: ys))
      from by simp [dumpItems]]
    simp only [List.length_append, List.length_cons]
    omega
termination_by lvl x xs => sizeOf x + sizeOf xs

theorem fieldsNeed_le_dumpLen : ∀ (lvl : Nat) (f : String × Json) (fs : List (String × Json)),
    fieldsNeed (f :: fs) ≤ (dumpFields lvl (f :: fs)).length
  | lvl, (k, v), [] => by
    have h := fuelNeed_le_dumpLen (lvl + 1) v
    have hp : (padC (lvl + 1)).length = 2 * (lvl + 1) := by simp [padC]
    simp only [fieldsNeed, dumpFields, List.length_append, List.length_cons]
    simp
    omega
  | lvl, (k, v), g :: gs => by
    have h1 := fuelNeed_le_dumpLen (lvl + 1) v
    have h2 := fieldsNeed_le_dumpLen lvl g gs
    have hmax : max (fuelNeed v) (fieldsNeed (g :: gs))
        ≤ (dumpChars (lvl + 1) v).length + (dumpFields lvl (g :: gs)).length :=
      Nat.max_le.mpr ⟨by omega, by omega⟩
    have hp : (padC (lvl + 1)).length = 2 * (lvl + 1) := by simp [padC]
    rw [fieldsNeed]
    rw [show dumpFields lvl ((k, v) :: g :: gs)
        = padC (lvl + 1) ++ ('"' :: (escStr k ++ ('"' :: ':' :: ' ' :: dumpChars (lvl + 1) v))) ++
            (',' :: '\n' :: dumpFields lvl (g :: gs))
      from by simp [dumpFields]]
    simp only [List.length_append, List.length_cons]
    omega
termination_by lvl f fs => sizeOf f + sizeOf fs

end

/-- The central round-trip property: parsing the pretty-printed form of any
JSON value gives back exactly that value.  This is what makes the repairer's
rewrite of an already-valid store lossless. -/
theorem parseDoc_dumpStr (v : Json) : parseDoc (dumpStr v) = some v := by
  have hskip : skipWs (dumpChars 0 v) = dumpChars 0 v := by
    obtain ⟨c, t, hct, hws, _, _⟩ := dump_head 0 v
    rw [hct, skipWs_cons_not hws]
  have hfuel : fuelNeed v ≤ (dumpChars 0 v).length + 1 :=
    le_trans (fuelNeed_le_dumpLen 0 v) (by omega)
  have hmain := (parse_dump_aux ((dumpChars 0 v).length + 1)).1 0 v [] hfuel rfl
  rw [List.append_nil] at hmain
  unfold parseDoc dumpStr
  have hdata : (String.mk (dumpChars 0 v)).data = dumpChars 0 v := rfl
  rw [hdata, hskip]
  show (match parseVal ((dumpChars 0 v).length + 1) (dumpChars 0 v) with
        | some (v, rest) => if skipWs rest = [] then some v else none
        | none => none) = some v
  rw [hmain]
  simp [skipWs]

/-! ## Python string helpers used by the scripts -/

/-- `str.split('\n')`: splitting on newlines, Python semantics (an empty
string yields one empty part; a trailing newline yields a trailing empty
part). -/
def splitOnNl : List Char → List (List Char)
  | [] => [[]]
  | c :: rest =>
    if c = '\n' then [] :: splitOnNl rest
    else
      match splitOnNl rest with
      | l :: ls => (c :: l) :: ls
      | [] => [[c]]

/-- `'\n'.join(parts)`. -/
def joinNl : List (List Char) → List Char
  | [] => []
  | [l] => l
  | l :: ls => l ++ '\n' :: joinNl ls

/-- `str.lstrip()` (ASCII whitespace). -/
def pyLstripL (cs : List Char) : List Char :=
  cs.dropWhile (fun c => isPyWs c)

/-- `str.rstrip()` (ASCII whitespace). -/
def pyRstripL (cs : List Char) : List Char :=
  (cs.reverse.dropWhile (fun c => isPyWs c)).reverse

/-- `str.strip()` (ASCII whitespace). -/
def pyStripL (cs : List Char) : List Char :=
  pyRstripL (pyLstripL cs)

/-- `line.count('{') - line.count('}')`, the brace-depth delta of one line. -/
def braceDelta (line : List Char) : Int :=
  (line.count '\x7b' : Int) - (line.count '\x7d' : Int)

/-- `line.strip().startswith('{')`. -/
def startsObj (line : List Char) : Bool :=
  match pyStripL line with
  | [] => false
  | c :: _ => c = '\x7b'

/-! ## The repairer: `scripts/cleanup/fix_json.py` -/

/-- The line loop of `extract_json_objects`, carried state in source order:
accumulated `objects`, the `current_object` line list, the running
`brace_count` and the `in_object` flag. -/
def extractLoop : List (List Char) → List Json → List (List Char) → Int → Bool → List Json
  | [], objects, _, _, _ => objects
  | line :: rest, objects, current, bc, inObj =>
    if startsObj line = true ∧ bc = 0 then
      extractLoop rest objects [line] (braceDelta line) true
    else if inObj then
      let current2 := current ++ [line]
      let bc2 := bc + braceDelta line
      if bc2 = 0 then
        match parseDoc (String.mk (joinNl current2)) with
        | some obj => extractLoop rest (objects ++ [obj]) [] bc2 false
        | none =>
          let t := pyRstripL (joinNl current2)
          let t2 := if t.getLast? = some ',' then t.dropLast else t
          match parseDoc (String.mk t2) with
          | some obj => extractLoop rest (objects ++ [obj]) [] bc2 false
          | none => extractLoop rest objects [] 0 false
      else
        extractLoop rest objects current2 bc2 inObj
    else
      extractLoop rest objects current bc inObj

/-- `extract_json_objects(content)`: scan the content line by line, opening a
candidate object at a line whose stripped text starts with a brace while the
running brace count is zero, closing it when the count returns to zero, then
parsing the accumulated text (retrying once without a trailing comma). -/
def extract_json_objects (content : String) : List Json :=
  extractLoop (splitOnNl content.data) [] [] 0 false

/-- Pure model of `fix_json_file(input_file)`: from the content of the input
file to the pair (return value, content written at the output path).  When
`output_file` is `None` the script first renames the original to a
timestamped backup and writes the output back at the original path; the
backup file and all console printing are outside this model.  A content that
loads as a JSON array is re-dumped as is; otherwise the extracted objects are
dumped and the output is verified by re-parsing. -/
def fix_json_file (content : String) : Bool × String :=
  match parseDoc content with
  | some (Json.arr data) => (true, String.mk (dumpChars 0 (Json.arr data)))
  | _ =>
    let objs := extract_json_objects content
    let out := String.mk (dumpChars 0 (Json.arr objs))
    match parseDoc out with
    | some _ => (true, out)
    | none => (false, out)

/-! ## Claims C6, C7, C10 -/

/-- The spec scenario input for C6: a two-record array missing its closing
bracket, records written inline. -/
def c6input : String :=
  "[\x7b\"url\":\"http://x/1\",\"title\":\"a\"\x7d,\n\x7b\"url\":\"http://x/2\",\"title\":\"b\"\x7d"

def c6rec1 : Json := Json.obj [("url", Json.str "http://x/1"), ("title", Json.str "a")]

def c6rec2 : Json := Json.obj [("url", Json.str "http://x/2"), ("title", Json.str "b")]

/-- C6 counterexample: on the spec scenario's exact content — an array
missing its closing bracket with one record per line, the first sharing its
line with the opening `[` — `extract_json_objects` recovers nothing at all,
not the two records the claim requires.  The first line's stripped text
starts with `[`, so no object is ever opened there, and a single-line object
is only parsed when a later line closes it, which never happens. -/
theorem C6_counterexample :
    extract_json_objects c6input = ([] : List Json) ∧
    extract_json_objects c6input ≠ [c6rec1, c6rec2] := by
  decide

/-- The same two records laid out the way the repairer can see them: the
opening bracket on its own line, each record spanning two lines. -/
def c6amendedInput : String :=
  "[\n\x7b\"url\":\"http://x/1\",\n\"title\":\"a\"\x7d,\n\x7b\"url\":\"http://x/2\",\n\"title\":\"b\"\x7d"

/-- C6 amended: repair applied to the truncated array whose `[` stands on
its own line and whose objects each span more than one line recovers exactly
the two records, in order (the first via the strip-trailing-comma retry). -/
theorem C6_repair_multiline_scenario :
    extract_json_objects c6amendedInput = [c6rec1, c6rec2] := by
  decide

/-- A non-trivially-sized corrupt store in which no line opens a JSON
object: repair can recover nothing from it. -/
def c7input : String :=
  String.mk ('[' :: '\n' :: List.replicate 150 'x')

set_option maxRecDepth 4000 in
/-- C7: on a non-trivially-sized file whose repair recovers zero records,
`fix_json_file` reports success (`True`) and writes the empty array `[]`
over the output path, rather than failing with a user-visible fatal error as
the claim requires (the original survives only in the timestamped backup). -/
theorem C7_repair_empty_success :
    fix_json_file c7input = (true, "[]") ∧
    100 ≤ c7input.length ∧
    extract_json_objects c7input = ([] : List Json) := by
  decide

/-- C10: running repair over a store that already parses as a valid JSON
array is lossless — the function reports success and the rewritten content
parses back to exactly the same record sequence (only formatting changes). -/
theorem C10_fix_json_valid_array_lossless :
    ∀ (content : String) (rs : List Json), parseDoc content = some (Json.arr rs) →
      fix_json_file content = (true, String.mk (dumpChars 0 (Json.arr rs))) ∧
      parseDoc (fix_json_file content).2 = some (Json.arr rs) := by
  intro content rs h
  have hfix : fix_json_file content = (true, String.mk (dumpChars 0 (Json.arr rs))) := by
    unfold fix_json_file
    rw [h]
  refine ⟨hfix, ?_⟩
  rw [hfix]
  exact parseDoc_dumpStr (Json.arr rs)

def c10input : String := "[\x7b\"url\": \"x\", \"n\": 3\x7d]"

def c10rec : Json := Json.obj [("url", Json.str "x"), ("n", Json.num 3)]

/-- C10 witness: the lossless-repair theorem applied to a concrete
single-record store. -/
theorem C10_fix_json_valid_array_lossless_witness :
    fix_json_file c10input = (true, String.mk (dumpChars 0 (Json.arr [c10rec]))) ∧
    parseDoc (fix_json_file c10input).2 = some (Json.arr [c10rec]) :=
  C10_fix_json_valid_array_lossless c10input [c10rec] (by decide)

/-! ## Record scoring: `robust_master_downloader.py` -/

/-- A record, i.e. one Python dict from the store: its items in insertion
order.  Duplicate keys cannot arise in a Python dict and are not modelled. -/
abbrev Rec := List (String × Json)

/-- Dict lookup (`entry.get(key)` / `entry[key]` / `key in entry`). -/
def lookupF : Rec → String → Option Json
  | [], _ => none
  | (k, v) :: t, key => if k = key then some v else lookupF t key

/-- Python truthiness of a JSON value. -/
def truthy : Json → Bool
  | Json.null => false
  | Json.bool b => b
  | Json.num n => decide (n ≠ 0)
  | Json.str s => decide (s.data ≠ [])
  | Json.arr xs => decide (xs ≠ [])
  | Json.obj fs => decide (fs ≠ [])

/-- Python `len()` of a JSON value where it is defined (strings, lists,
dicts).  Python raises `TypeError` on the other values; the scoring function
only applies this to `top_comments`, a list in every modelled record. -/
def pyLen : Json → Nat
  | Json.str s => s.data.length
  | Json.arr xs => xs.length
  | Json.obj fs => fs.length
  | _ => 0

mutual

/-- Python `str(value)` as applied to candidate transcript fields.
Containers are rendered repr-style with single-quoted strings; repr's
escaping inside strings is not modelled (no modelled record exercises it). -/
def pyStr : Json → List Char
  | Json.null => ['N', 'o', 'n', 'e']
  | Json.bool true => ['T', 'r', 'u', 'e']
  | Json.bool false => ['F', 'a', 'l', 's', 'e']
  | Json.num n => intChars n
  | Json.str s => s.data
  | Json.arr [] => ['[', ']']
  | Json.arr (x :: xs) => '[' :: (pyStrItems (x :: xs) ++ [']'])
  | Json.obj [] => ['\x7b', '\x7d']
  | Json.obj (f :: fs) => '\x7b' :: (pyStrFields (f :: fs) ++ ['\x7d'])

/-- Comma-separated repr of list elements. -/
def pyStrItems : List Json → List Char
  | [] => []
  | [x] => pyStrRepr x
  | x :: y :: ys => pyStrRepr x ++ (',' :: ' ' :: pyStrItems (y :: ys))

/-- Comma-separated repr of dict items. -/
def pyStrFields : List (String × Json) → List Char
  | [] => []
  | [(k, v)] => '\x27' :: (k.data ++ ('\x27' :: ':' :: ' ' :: pyStrRepr v))
  | (k, v) :: g :: gs =>
    '\x27' :: (k.data ++ ('\x27' :: ':' :: ' ' :: pyStrRepr v)) ++
      (',' :: ' ' :: pyStrFields (g :: gs))

/-- Python `repr(value)` for elements nested inside containers (strings get
quotes there, unlike at top level). -/
def pyStrRepr : Json → List Char
  | Json.str s => '\x27' :: (s.data ++ ['\x27'])
  | Json.null => ['N', 'o', 'n', 'e']
  | Json.bool true => ['T', 'r', 'u', 'e']
  | Json.bool false => ['F', 'a', 'l', 's', 'e']
  | Json.num n => intChars n
  | Json.arr [] => ['[', ']']
  | Json.arr (x :: xs) => '[' :: (pyStrItems (x :: xs) ++ [']'])
  | Json.obj [] => ['\x7b', '\x7d']
  | Json.obj (f :: fs) => '\x7b' :: (pyStrFields (f :: fs) ++ ['\x7d'])

end

/-- `entry.get(key, '').strip()` for a field expected to hold a string.
Python raises `AttributeError` when the field holds a non-string value; such
records are outside the modelled domain and are treated as the empty
string. -/
def getStripped (e : Rec) (k : String) : List Char :=
  match lookupF e k with
  | some (Json.str s) => pyStripL s.data
  | _ => []

/-- ASCII `str.lower()`. -/
def toLowerL (cs : List Char) : List Char :=
  cs.map Char.toLower

/-- Python substring test `pat in s`. -/
def containsSub : List Char → List Char → Bool
  | pat, [] => decide (pat = [])
  | pat, c :: rest => List.isPrefixOf pat (c :: rest) || containsSub pat rest

/-- `has_transcription_with_min_length(entry, min_length=50)`: checks the
four named transcript fields and then any field whose lowercased name
contains `transcript`, requiring a stripped text of at least `min_length`
characters. -/
def has_transcription_with_min_length (e : Rec) (min_length : Nat) : Bool :=
  let transcription := getStripped e "transcription"
  if transcription ≠ [] ∧ min_length ≤ transcription.length then true
  else
    let subtitle := getStripped e "subtitle"
    if subtitle ≠ [] ∧ min_length ≤ subtitle.length then true
    else
      let subtitles := getStripped e "subtitles"
      if subtitles ≠ [] ∧ min_length ≤ subtitles.length then true
      else
        let whisper := getStripped e "whisper_transcription"
        if whisper ≠ [] ∧ min_length ≤ whisper.length then true
        else
          e.any (fun f =>
            if (containsSub "transcript".data (toLowerL f.1.data) = true ∧ truthy f.2 = true) then
              let text := pyStripL (pyStr f.2)
              decide (text ≠ [] ∧ min_length ≤ text.length)
            else false)

def basic_fields : List String :=
  ["title", "description", "url", "video_id", "uploader", "upload_date"]

def metadata_fields : List String :=
  ["view_count", "like_count", "comment_count", "duration", "width", "height"]

/-- `field in entry and entry[field]`. -/
def fieldTruthy (e : Rec) (f : String) : Bool :=
  match lookupF e f with
  | some v => truthy v
  | none => false

/-- `field in entry and entry[field] is not None`. -/
def fieldNotNull (e : Rec) (f : String) : Bool :=
  match lookupF e f with
  | some Json.null => false
  | some _ => true
  | none => false

/-- `get_data_completeness_score(entry)` of `robust_master_downloader.py`,
accumulating in source order: +1 per basic field present and truthy, +1 per
metadata field present and non-null, +10 for `comments_extracted is True`
plus one point per comment capped at 10, +5 for a meaningful-length
transcription, +2 for a truthy `downloaded_at`. -/
def get_data_completeness_score (e : Rec) : Nat :=
  let score := 0
  let score := basic_fields.foldl (fun s f => if fieldTruthy e f then s + 1 else s) score
  let score := metadata_fields.foldl (fun s f => if fieldNotNull e f then s + 1 else s) score
  let score :=
    if lookupF e "comments_extracted" = some (Json.bool true) then
      score + 10 + min (pyLen ((lookupF e "top_comments").getD (Json.arr []))) 10
    else score
  let score := if has_transcription_with_min_length e 50 then score + 5 else score
  let score := if truthy ((lookupF e "downloaded_at").getD Json.null) then score + 2 else score
  score

/-! ## Deduplication: `remove_duplicates_from_data` -/

/-- `isinstance(entry, dict) and 'url' in entry`, returning `entry['url']`
when it holds. -/
def urlKey : Json → Option Json
  | Json.obj fs => lookupF fs "url"
  | _ => none

/-- The completeness score of a store entry.  Only dict entries are ever
scored by the deduplicator. -/
def scoreJ : Json → Nat
  | Json.obj fs => get_data_completeness_score fs
  | _ => 0

/-- Append an entry to its url's group, or open a new group at the end
(insertion-ordered dict semantics of `url_entries`). -/
def insertGrp : List (Json × List Json) → Json → Json → List (Json × List Json)
  | [], u, e => [(u, [e])]
  | (k, rs) :: t, u, e =>
    if k = u then (k, rs ++ [e]) :: t else (k, rs) :: insertGrp t u e

/-- One step of the grouping loop: keyed entries go to `url_entries`,
entries without a url to `entries_without_url`. -/
def addEntry (st : List (Json × List Json) × List Json) (e : Json) :
    List (Json × List Json) × List Json :=
  match urlKey e with
  | some u => (insertGrp st.1 u e, st.2)
  | none => (st.1, st.2 ++ [e])

/-- The grouping pass over the data. -/
def groupEntries (data : List Json) : List (Json × List Json) × List Json :=
  data.foldl addEntry ([], [])

/-- Python `max(xs, key=f)` over a nonempty list `x :: rest`: the first
element attaining the maximum key (later elements replace the current best
only when strictly greater). -/
def pyMaxBy (f : Json → Nat) : Json → List Json → Json
  | x, [] => x
  | x, a :: rest => pyMaxBy f (if f a > f x then a else x) rest

/-- Per-group selection: a single entry is kept as is, a larger group keeps
`max(entries, key=get_data_completeness_score)`.  Groups are never empty;
the `[]` branch is unreachable. -/
def pick (g : Json × List Json) : Json :=
  match g.2 with
  | [] => Json.null
  | [e] => e
  | e :: rest => pyMaxBy scoreJ e rest

/-- `remove_duplicates_from_data(data)`: group by url, keep the most
complete entry of each group, then append the entries without a url. -/
def remove_duplicates_from_data (data : List Json) : List Json :=
  let gs := groupEntries data
  gs.1.map pick ++ gs.2

/-! ## Grouping lemmas for the deduplicator -/

/-- The Bool form of "this entry's url is `u`". -/
def urlIs (u : Json) (e : Json) : Bool :=
  decide (urlKey e = some u)

/-- Association lookup in the grouped entries (first matching key). -/
def grpOf : List (Json × List Json) → Json → List Json
  | [], _ => []
  | (k, rs) :: t, u => if k = u then rs else grpOf t u

/-- The keys of the grouped entries, in insertion order. -/
def keysOf (gs : List (Json × List Json)) : List Json :=
  gs.map Prod.fst

theorem grpOf_insertGrp (u2 e : Json) :
    ∀ (gs : List (Json × List Json)) (u : Json),
    grpOf (insertGrp gs u2 e) u = if u = u2 then grpOf gs u ++ [e] else grpOf gs u := by
  intro gs
  induction gs with
  | nil =>
    intro u
    by_cases h : u = u2
    · subst h
      simp [insertGrp, grpOf]
    · rw [if_neg h]
      simp [insertGrp, grpOf]
      intro h2
      exact absurd h2.symm h
  | cons p t ih =>
    obtain ⟨k, rs⟩ := p
    intro u
    simp only [insertGrp]
    by_cases hk : k = u2
    · rw [if_pos hk]
      subst hk
      by_cases hu : u = k
      · subst hu
        simp [grpOf]
      · rw [if_neg hu]
        simp [grpOf, Ne.symm hu]
    · rw [if_neg hk]
      by_cases hu : k = u
      · subst hu
        simp [grpOf, hk]
      · simp [grpOf, hu, ih u]

theorem keysOf_insertGrp (u e : Json) :
    ∀ gs, keysOf (insertGrp gs u e)
      = if u ∈ keysOf gs then keysOf gs else keysOf gs ++ [u] := by
  intro gs
  induction gs with
  | nil => simp [insertGrp, keysOf]
  | cons p t ih =>
    obtain ⟨k, rs⟩ := p
    simp only [insertGrp]
    by_cases hk : k = u
    · subst hk
      simp [keysOf]
    · rw [if_neg hk]
      have hmem : u ∈ keysOf ((k, rs) :: t) ↔ u ∈ keysOf t := by
        simp [keysOf, Ne.symm hk]
      by_cases hu : u ∈ keysOf t
      · rw [if_pos (hmem.mpr hu)]
        simp only [keysOf, List.map_cons] at ih hu ⊢
        rw [ih, if_pos hu]
      · rw [if_neg (fun h => hu (hmem.mp h))]
        simp only [keysOf, List.map_cons] at ih hu ⊢
        rw [ih, if_neg hu]
        simp

theorem insertGrp_not_mem (u e : Json) :
    ∀ gs, u ∉ keysOf gs → insertGrp gs u e = gs ++ [(u, [e])] := by
  intro gs
  induction gs with
  | nil => intro _; simp [insertGrp]
  | cons p t ih =>
    obtain ⟨k, rs⟩ := p
    intro h
    have hk : ¬ k = u := by
      intro hk
      exact h (by simp [keysOf, hk])
    have ht : u ∉ keysOf t := by
      intro hu
      exact h (by simp [keysOf] at hu ⊢; tauto)
    simp [insertGrp, hk, ih ht]

theorem groupFold_grpOf :
    ∀ (data : List Json) (acc : List (Json × List Json) × List Json) (u : Json),
    grpOf (data.foldl addEntry acc).1 u = grpOf acc.1 u ++ data.filter (urlIs u) := by
  intro data
  induction data with
  | nil => intro acc u; simp
  | cons e t ih =>
    intro acc u
    rw [List.foldl_cons, ih, List.filter_cons]
    cases he : urlKey e with
    | some u2 =>
      simp only [addEntry, he]
      rw [grpOf_insertGrp]
      by_cases h : u = u2
      · subst h
        rw [if_pos rfl]
        have hp : urlIs u e = true := by simp [urlIs, he]
        simp [hp, List.append_assoc]
      · rw [if_neg h]
        have hp : urlIs u e = false := by
          simp [urlIs, he]
          exact fun h2 => absurd h2.symm h
        simp [hp]
    | none =>
      simp only [addEntry, he]
      have hp : urlIs u e = false := by simp [urlIs, he]
      simp [hp]

theorem groupFold_ns :
    ∀ (data : List Json) (acc : List (Json × List Json) × List Json),
    (data.foldl addEntry acc).2 = acc.2 ++ data.filter (fun e => (urlKey e).isNone) := by
  intro data
  induction data with
  | nil => intro acc; simp
  | cons e t ih =>
    intro acc
    rw [List.foldl_cons, ih, List.filter_cons]
    cases he : urlKey e with
    | some u2 =>
      simp only [addEntry, he]
      simp [he]
    | none =>
      simp only [addEntry, he]
      simp [he, List.append_assoc]

theorem groupFold_keys_nodup :
    ∀ (data : List Json) (acc : List (Json × List Json) × List Json),
    (keysOf acc.1).Nodup → (keysOf (data.foldl addEntry acc).1).Nodup := by
  intro data
  induction data with
  | nil => intro acc h; exact h
  | cons e t ih =>
    intro acc h
    rw [List.foldl_cons]
    apply ih
    cases he : urlKey e with
    | some u2 =>
      simp only [addEntry, he]
      rw [keysOf_insertGrp]
      by_cases hm : u2 ∈ keysOf acc.1
      · rw [if_pos hm]; exact h
      · rw [if_neg hm]
        simp [List.nodup_append, h, hm]
    | none =>
      simp only [addEntry, he]
      exact h

/-- Every group is nonempty and all its members carry the group's url. -/
def goodGroups (gs : List (Json × List Json)) : Prop :=
  ∀ p ∈ gs, p.2 ≠ [] ∧ ∀ r ∈ p.2, urlKey r = some p.1

theorem goodGroups_insertGrp (u e : Json) (he : urlKey e = some u) :
    ∀ gs, goodGroups gs → goodGroups (insertGrp gs u e) := by
  intro gs
  induction gs with
  | nil =>
    intro _
    intro p hp
    simp [insertGrp] at hp
    subst hp
    refine ⟨by simp, ?_⟩
    intro r hr
    simp at hr
    subst hr
    exact he
  | cons q t ih =>
    obtain ⟨k, rs⟩ := q
    intro h
    simp only [insertGrp]
    by_cases hk : k = u
    · rw [if_pos hk]
      subst hk
      intro p hp
      rcases List.mem_cons.mp hp with hp | hp
      · subst hp
        obtain ⟨hne, hall⟩ := h (k, rs) (by simp)
        refine ⟨by simp, ?_⟩
        intro r hr
        rcases List.mem_append.mp hr with hr | hr
        · exact hall r hr
        · simp at hr
          subst hr
          exact he
      · exact h p (by simp [hp])
    · rw [if_neg hk]
      intro p hp
      rcases List.mem_cons.mp hp with hp | hp
      · subst hp
        exact h (k, rs) (by simp)
      · exact ih (fun q hq => h q (by simp [hq])) p hp

theorem groupFold_good :
    ∀ (data : List Json) (acc : List (Json × List Json) × List Json),
    goodGroups acc.1 → goodGroups (data.foldl addEntry acc).1 := by
  intro data
  induction data with
  | nil => intro acc h; exact h
  | cons e t ih =>
    intro acc h
    rw [List.foldl_cons]
    apply ih
    cases he : urlKey e with
    | some u2 =>
      simp only [addEntry, he]
      exact goodGroups_insertGrp u2 e he acc.1 h
    | none =>
      simp only [addEntry, he]
      exact h

theorem mem_keysOf_insertGrp (u u2 e : Json) (gs : List (Json × List Json)) :
    u ∈ keysOf (insertGrp gs u2 e) ↔ u ∈ keysOf gs ∨ u = u2 := by
  rw [keysOf_insertGrp]
  by_cases hm : u2 ∈ keysOf gs
  · rw [if_pos hm]
    constructor
    · exact fun h => Or.inl h
    · intro h
      rcases h with h | h
      · exact h
      · subst h; exact hm
  · rw [if_neg hm]
    simp

theorem mem_keys_groupFold :
    ∀ (data : List Json) (acc : List (Json × List Json) × List Json) (u : Json),
    u ∈ keysOf (data.foldl addEntry acc).1
      ↔ u ∈ keysOf acc.1 ∨ ∃ e ∈ data, urlKey e = some u := by
  intro data
  induction data with
  | nil => intro acc u; simp
  | cons e t ih =>
    intro acc u
    rw [List.foldl_cons, ih]
    cases he : urlKey e with
    | some u2 =>
      simp only [addEntry, he]
      rw [mem_keysOf_insertGrp]
      simp only [List.mem_cons]
      constructor
      · intro h
        rcases h with (h | h) | h
        · exact Or.inl h
        · exact Or.inr ⟨e, Or.inl rfl, by rw [he, h]⟩
        · obtain ⟨x, hx, hux⟩ := h
          exact Or.inr ⟨x, Or.inr hx, hux⟩
      · intro h
        rcases h with h | h
        · exact Or.inl (Or.inl h)
        · obtain ⟨x, hx, hux⟩ := h
          rcases hx with hx | hx
          · subst hx
            rw [he] at hux
            exact Or.inl (Or.inr (by injection hux with h2; exact h2.symm))
          · exact Or.inr ⟨x, hx, hux⟩
    | none =>
      simp only [addEntry, he]
      simp only [List.mem_cons]
      constructor
      · intro h
        rcases h with h | h
        · exact Or.inl h
        · obtain ⟨x, hx, hux⟩ := h
          exact Or.inr ⟨x, Or.inr hx, hux⟩
      · intro h
        rcases h with h | h
        · exact Or.inl h
        · obtain ⟨x, hx, hux⟩ := h
          rcases hx with hx | hx
          · subst hx
            rw [he] at hux
            exact absurd hux (by simp)
          · exact Or.inr ⟨x, hx, hux⟩

theorem pyMaxBy_mem (f : Json → Nat) :
    ∀ (rest : List Json) (x : Json), pyMaxBy f x rest ∈ x :: rest := by
  intro rest
  induction rest with
  | nil => intro x; simp [pyMaxBy]
  | cons a t ih =>
    intro x
    simp only [pyMaxBy]
    by_cases h : f a > f x
    · rw [if_pos h]
      have := ih a
      simp only [List.mem_cons] at this ⊢
      tauto
    · rw [if_neg h]
      have := ih x
      simp only [List.mem_cons] at this ⊢
      tauto

theorem pyMaxBy_ge (f : Json → Nat) :
    ∀ (rest : List Json) (x : Json) (a : Json), a ∈ x :: rest → f a ≤ f (pyMaxBy f x rest) := by
  intro rest
  induction rest with
  | nil =>
    intro x a ha
    simp at ha
    subst ha
    simp [pyMaxBy]
  | cons b t ih =>
    intro x a ha
    simp only [pyMaxBy]
    by_cases h : f b > f x
    · rw [if_pos h]
      rcases List.mem_cons.mp ha with ha | ha
      · subst ha
        have hb := ih b b (by simp)
        omega
      · exact ih b a ha
    · rw [if_neg h]
      have hxx : f x ≤ f (pyMaxBy f x t) := ih x x (by simp)
      rcases List.mem_cons.mp ha with ha | ha
      · rw [ha]; exact hxx
      · rcases List.mem_cons.mp ha with ha | ha
        · rw [ha]; omega
        · exact ih x a (List.mem_cons.mpr (Or.inr ha))

theorem find?_beq_cons (f : Json → Nat) (c : Nat) (a : Json) (l : List Json) :
    (a :: l).find? (fun r => f r == c) =
      if f a = c then some a else l.find? (fun r => f r == c) := by
  by_cases h : f a = c
  · simp [List.find?, h]
  · have hb : (f a == c) = false := by simp [h]
    simp [List.find?, hb, h]

theorem pyMaxBy_first (f : Json → Nat) :
    ∀ (rest : List Json) (x : Json),
    (x :: rest).find? (fun a => f a == f (pyMaxBy f x rest)) = some (pyMaxBy f x rest) := by
  intro rest
  induction rest with
  | nil =>
    intro x
    simp [pyMaxBy, List.find?]
  | cons a t ih =>
    intro x
    simp only [pyMaxBy]
    by_cases h : f a > f x
    · rw [if_pos h]
      have hle : f a ≤ f (pyMaxBy f a t) := pyMaxBy_ge f t a a (by simp)
      have hx : ¬ f x = f (pyMaxBy f a t) := by omega
      rw [find?_beq_cons, if_neg hx]
      exact ih a
    · rw [if_neg h]
      have hxle : f x ≤ f (pyMaxBy f x t) := pyMaxBy_ge f t x x (by simp)
      by_cases hx : f x = f (pyMaxBy f x t)
      · have hfind := ih x
        rw [find?_beq_cons, if_pos hx] at hfind
        have hxm : x = pyMaxBy f x t := by injection hfind
        rw [find?_beq_cons, if_pos hx, ← hxm]
      · have hab : ¬ f a = f (pyMaxBy f x t) := by omega
        rw [find?_beq_cons, if_neg hx]
        have hfind := ih x
        rw [find?_beq_cons, if_neg hx] at hfind
        rw [find?_beq_cons, if_neg hab]
        exact hfind

theorem urlKey_pick (p : Json × List Json) (h2 : p.2 ≠ [])
    (h3 : ∀ r ∈ p.2, urlKey r = some p.1) : urlKey (pick p) = some p.1 := by
  obtain ⟨u, rs⟩ := p
  cases rs with
  | nil => exact absurd rfl h2
  | cons e rest =>
    cases rest with
    | nil =>
      exact h3 e (by simp)
    | cons y t =>
      have hm : pyMaxBy scoreJ e (y :: t) ∈ e :: y :: t := pyMaxBy_mem scoreJ (y :: t) e
      exact h3 _ hm

theorem pick_mem (p : Json × List Json) (h2 : p.2 ≠ []) : pick p ∈ p.2 := by
  obtain ⟨u, rs⟩ := p
  cases rs with
  | nil => exact absurd rfl h2
  | cons e rest =>
    cases rest with
    | nil => simp [pick]
    | cons y t => exact pyMaxBy_mem scoreJ (y :: t) e

theorem pick_max (p : Json × List Json) (h2 : p.2 ≠ []) :
    ∀ r ∈ p.2, scoreJ r ≤ scoreJ (pick p) := by
  obtain ⟨u, rs⟩ := p
  cases rs with
  | nil => exact absurd rfl h2
  | cons e rest =>
    cases rest with
    | nil =>
      intro r hr
      simp at hr
      subst hr
      simp [pick]
    | cons y t =>
      intro r hr
      exact pyMaxBy_ge scoreJ (y :: t) e r hr

theorem grpOf_of_nodup :
    ∀ (gs : List (Json × List Json)), (keysOf gs).Nodup →
    ∀ p ∈ gs, grpOf gs p.1 = p.2 := by
  intro gs
  induction gs with
  | nil => intro _ p hp; simp at hp
  | cons q t ih =>
    obtain ⟨k, rs⟩ := q
    intro hnd p hp
    have hnd2 : (keysOf t).Nodup := by
      simp only [keysOf, List.map_cons, List.nodup_cons] at hnd
      exact hnd.2
    have hknot : k ∉ keysOf t := by
      simp only [keysOf, List.map_cons, List.nodup_cons] at hnd
      exact hnd.1
    rcases List.mem_cons.mp hp with hp | hp
    · subst hp
      simp [grpOf]
    · have hne : ¬ k = p.1 := by
        intro hk
        apply hknot
        rw [hk]
        exact List.mem_map.mpr ⟨p, hp, rfl⟩
      simp only [grpOf, if_neg hne]
      exact ih hnd2 p hp

theorem filter_map_pick :
    ∀ (gs : List (Json × List Json)), (keysOf gs).Nodup → goodGroups gs →
    ∀ u, (gs.map pick).filter (urlIs u)
      = if u ∈ keysOf gs then [pick (u, grpOf gs u)] else [] := by
  intro gs
  induction gs with
  | nil => intro _ _ u; simp [keysOf]
  | cons p t ih =>
    obtain ⟨k, rs⟩ := p
    intro hnd hgood u
    have hgd := hgood (k, rs) (by simp)
    have hpk : urlKey (pick (k, rs)) = some k := urlKey_pick (k, rs) hgd.1 hgd.2
    have hnd2 : (keysOf t).Nodup := by
      simp only [keysOf, List.map_cons, List.nodup_cons] at hnd
      exact hnd.2
    have hknot : k ∉ keysOf t := by
      simp only [keysOf, List.map_cons, List.nodup_cons] at hnd
      exact hnd.1
    have hgood2 : goodGroups t := fun q hq => hgood q (by simp [hq])
    rw [List.map_cons, List.filter_cons]
    by_cases hku : k = u
    · subst hku
      have hp : urlIs k (pick (k, rs)) = true := by simp [urlIs, hpk]
      rw [hp]
      simp only [if_pos trivial]
      have hmem : k ∈ keysOf ((k, rs) :: t) := by simp [keysOf]
      rw [if_pos hmem]
      have hrest : (t.map pick).filter (urlIs k) = [] := by
        rw [ih hnd2 hgood2 k, if_neg hknot]
      rw [hrest]
      have hgrp : grpOf ((k, rs) :: t) k = rs := by simp [grpOf]
      rw [hgrp]
    · have hp : urlIs u (pick (k, rs)) = false := by
        simp [urlIs, hpk]
        exact fun h => absurd h hku
      rw [hp]
      simp only [Bool.false_eq_true, if_false]
      rw [ih hnd2 hgood2 u]
      have hmem : (u ∈ keysOf ((k, rs) :: t)) ↔ (u ∈ keysOf t) := by
        simp [keysOf]
        intro hk
        exact absurd hk.symm hku
      by_cases hu : u ∈ keysOf t
      · rw [if_pos hu, if_pos (hmem.mpr hu)]
        have hgrp : grpOf ((k, rs) :: t) u = grpOf t u := by
          simp [grpOf, hku]
        rw [hgrp]
      · rw [if_neg hu, if_neg (fun h => hu (hmem.mp h))]

/-! ## Spec-side score components and concrete examples for the deduplicator -/

/-- Spec wording: "+1 per basic field present and truthy". -/
def basicScore (e : Rec) : Nat :=
  (basic_fields.filter (fieldTruthy e)).length

/-- Spec wording: "+1 per metadata field present and not null". -/
def metaScore (e : Rec) : Nat :=
  (metadata_fields.filter (fieldNotNull e)).length

/-- Spec wording: "+10 if the comments-extracted flag is true, plus one
point per comment capped at 10". -/
def commentScore (e : Rec) : Nat :=
  if lookupF e "comments_extracted" = some (Json.bool true) then
    10 + min (pyLen ((lookupF e "top_comments").getD (Json.arr []))) 10
  else 0

/-- Spec wording: "+5 if a transcription field of meaningful length is
present". -/
def transcriptionScore (e : Rec) : Nat :=
  if has_transcription_with_min_length e 50 then 5 else 0

/-- Spec wording: "+2 if a download timestamp is present". -/
def downloadScore (e : Rec) : Nat :=
  if truthy ((lookupF e "downloaded_at").getD Json.null) then 2 else 0

/-- A record with the comments flag set and 12 comments: exercises the
per-comment cap. -/
def c4cap : Rec :=
  [("comments_extracted", Json.bool true),
   ("top_comments", Json.arr (List.replicate 12 Json.null))]

/-- The spec example record of url "A" and score 3. -/
def exA1 : Json :=
  Json.obj [("url", Json.str "A"), ("title", Json.str "t"),
            ("video_id", Json.str "v")]

/-- The spec example record of url "A" and score 7. -/
def exA2 : Json :=
  Json.obj [("url", Json.str "A"), ("title", Json.str "t"),
            ("video_id", Json.str "v"), ("uploader", Json.str "u"),
            ("view_count", Json.num 0), ("like_count", Json.num 0),
            ("duration", Json.num 0)]

/-- The spec example record of url "B" and score 1. -/
def exB : Json :=
  Json.obj [("url", Json.str "B")]

/-- Two records of url "T" with equal completeness scores, for the
tie-break. -/
def exT1 : Json :=
  Json.obj [("url", Json.str "T"), ("title", Json.str "x")]

/-- The second, equally scored record of url "T". -/
def exT2 : Json :=
  Json.obj [("url", Json.str "T"), ("title", Json.str "y")]

theorem foldl_count (p : String → Bool) :
    ∀ (l : List String) (n : Nat),
    l.foldl (fun s f => if p f then s + 1 else s) n = n + (l.filter p).length := by
  intro l
  induction l with
  | nil => intro n; simp
  | cons a t ih =>
    intro n
    rw [List.foldl_cons, List.filter_cons]
    by_cases h : p a = true
    · rw [if_pos h, if_pos h, ih]
      simp
      omega
    · rw [if_neg h, if_neg h, ih]

theorem foldl_addEntry_nokey :
    ∀ (es : List Json) (acc1 : List (Json × List Json)) (acc2 : List Json),
    (∀ e ∈ es, urlKey e = none) →
    es.foldl addEntry (acc1, acc2) = (acc1, acc2 ++ es) := by
  intro es
  induction es with
  | nil => intro acc1 acc2 _; simp
  | cons e t ih =>
    intro acc1 acc2 h
    rw [List.foldl_cons]
    have he : urlKey e = none := h e (by simp)
    have hstep : addEntry (acc1, acc2) e = (acc1, acc2 ++ [e]) := by
      simp [addEntry, he]
    rw [hstep, ih acc1 (acc2 ++ [e]) (fun x hx => h x (by simp [hx]))]
    simp

theorem foldl_map_pick :
    ∀ (gs : List (Json × List Json)) (acc1 : List (Json × List Json)) (acc2 : List Json),
    (keysOf gs).Nodup → goodGroups gs →
    (∀ u ∈ keysOf gs, u ∉ keysOf acc1) →
    (gs.map pick).foldl addEntry (acc1, acc2)
      = (acc1 ++ gs.map (fun g => (g.1, [pick g])), acc2) := by
  intro gs
  induction gs with
  | nil => intro acc1 acc2 _ _ _; simp
  | cons g t ih =>
    intro acc1 acc2 hnd hgood hdisj
    have hgd := hgood g (by simp)
    have hpk : urlKey (pick g) = some g.1 := urlKey_pick g hgd.1 hgd.2
    rw [List.map_cons, List.foldl_cons]
    have hstep : addEntry (acc1, acc2) (pick g) = (acc1 ++ [(g.1, [pick g])], acc2) := by
      simp only [addEntry, hpk]
      rw [insertGrp_not_mem g.1 (pick g) acc1 (hdisj g.1 (by simp [keysOf]))]
    rw [hstep]
    have hnd2 : (keysOf t).Nodup := by
      simp only [keysOf, List.map_cons, List.nodup_cons] at hnd
      exact hnd.2
    have hg1 : g.1 ∉ keysOf t := by
      simp only [keysOf, List.map_cons, List.nodup_cons] at hnd
      exact hnd.1
    have hgood2 : goodGroups t := fun q hq => hgood q (by simp [hq])
    have hdisj2 : ∀ u ∈ keysOf t, u ∉ keysOf (acc1 ++ [(g.1, [pick g])]) := by
      intro u hu
      simp only [keysOf, List.map_append]
      rw [List.mem_append]
      rintro (h | h)
      · refine hdisj u ?_ h
        have hk : keysOf (g :: t) = g.1 :: keysOf t := by simp [keysOf]
        rw [hk]
        exact List.mem_cons_of_mem _ hu
      · simp at h
        rw [h] at hu
        exact hg1 hu
    rw [ih (acc1 ++ [(g.1, [pick g])]) acc2 hnd2 hgood2 hdisj2]
    simp

/-- C3: for every url that occurs in the data, deduplication keeps exactly
one record with that url, a member of the url's group attaining the
maximum completeness score; records without a url pass through unchanged;
and on the spec's concrete example (url "A" at scores 3 and 7, url "B" at
score 1) the output is exactly the score-7 "A" record followed by the "B"
record. -/
theorem C3_dedup_keeps_single_max (data : List Json) (u : Json)
    (hu : ∃ e ∈ data, urlKey e = some u) :
    (∃ kept,
      (remove_duplicates_from_data data).filter (urlIs u) = [kept] ∧
      kept ∈ data.filter (urlIs u) ∧
      ∀ r ∈ data.filter (urlIs u), scoreJ r ≤ scoreJ kept) ∧
    (remove_duplicates_from_data data).filter (fun e => (urlKey e).isNone)
      = data.filter (fun e => (urlKey e).isNone) ∧
    remove_duplicates_from_data [exA1, exA2, exB] = [exA2, exB] ∧
    scoreJ exA1 = 3 ∧ scoreJ exA2 = 7 ∧ scoreJ exB = 1 := by
  obtain ⟨e0, he0, hk0⟩ := hu
  have hnd : (keysOf (data.foldl addEntry ([], [])).1).Nodup :=
    groupFold_keys_nodup data ([], []) (by simp [keysOf])
  have hgood : goodGroups (data.foldl addEntry ([], [])).1 :=
    groupFold_good data ([], []) (by intro p hp; simp at hp)
  have hgrp : grpOf (data.foldl addEntry ([], [])).1 u = data.filter (urlIs u) := by
    have h := groupFold_grpOf data ([], []) u
    simpa [grpOf] using h
  have hns : (data.foldl addEntry ([], [])).2 = data.filter (fun e => (urlKey e).isNone) := by
    simpa using groupFold_ns data ([], [])
  have hmem : u ∈ keysOf (data.foldl addEntry ([], [])).1 :=
    (mem_keys_groupFold data ([], []) u).mpr (Or.inr ⟨e0, he0, hk0⟩)
  have hfil : ((data.foldl addEntry ([], [])).1.map pick).filter (urlIs u)
      = [pick (u, data.filter (urlIs u))] := by
    rw [filter_map_pick _ hnd hgood u, if_pos hmem, hgrp]
  have hgne : data.filter (urlIs u) ≠ [] := by
    intro hnil
    have hin : e0 ∈ data.filter (urlIs u) := by
      rw [List.mem_filter]
      exact ⟨he0, by simp [urlIs, hk0]⟩
    rw [hnil] at hin
    simp at hin
  have hout : remove_duplicates_from_data data
      = (data.foldl addEntry ([], [])).1.map pick
        ++ (data.foldl addEntry ([], [])).2 := rfl
  have hns_fil : ((data.foldl addEntry ([], [])).2).filter (urlIs u) = [] := by
    rw [hns]
    apply List.filter_eq_nil_iff.mpr
    intro a ha
    rw [List.mem_filter] at ha
    simp only [urlIs, decide_eq_true_eq]
    intro hku
    rw [hku] at ha
    simp at ha
  refine ⟨⟨pick (u, data.filter (urlIs u)), ?_, ?_, ?_⟩, ?_, by decide, by decide,
    by decide, by decide⟩
  · rw [hout, List.filter_append, hfil, hns_fil, List.append_nil]
  · exact pick_mem (u, data.filter (urlIs u)) hgne
  · exact pick_max (u, data.filter (urlIs u)) hgne
  · rw [hout, List.filter_append, hns]
    have hmap : ((data.foldl addEntry ([], [])).1.map pick).filter
        (fun e => (urlKey e).isNone) = [] := by
      apply List.filter_eq_nil_iff.mpr
      intro a ha
      rw [List.mem_map] at ha
      obtain ⟨g, hg, rfl⟩ := ha
      have hgd := hgood g hg
      rw [urlKey_pick g hgd.1 hgd.2]
      simp
    rw [hmap]
    have hidem : (data.filter (fun e => (urlKey e).isNone)).filter
        (fun e => (urlKey e).isNone) = data.filter (fun e => (urlKey e).isNone) := by
      apply List.filter_eq_self.mpr
      intro a ha
      exact (List.mem_filter.mp ha).2
    rw [hidem]
    simp

theorem C3_dedup_keeps_single_max_witness :
    (∃ kept,
      (remove_duplicates_from_data [exA1, exA2, exB]).filter (urlIs (Json.str "A")) = [kept] ∧
      kept ∈ [exA1, exA2, exB].filter (urlIs (Json.str "A")) ∧
      ∀ r ∈ [exA1, exA2, exB].filter (urlIs (Json.str "A")), scoreJ r ≤ scoreJ kept) ∧
    (remove_duplicates_from_data [exA1, exA2, exB]).filter (fun e => (urlKey e).isNone)
      = [exA1, exA2, exB].filter (fun e => (urlKey e).isNone) ∧
    remove_duplicates_from_data [exA1, exA2, exB] = [exA2, exB] ∧
    scoreJ exA1 = 3 ∧ scoreJ exA2 = 7 ∧ scoreJ exB = 1 :=
  C3_dedup_keeps_single_max [exA1, exA2, exB] (Json.str "A") (by decide)

/-- C4: the completeness score equals the sum of the five spec components
(basic fields truthy, metadata fields non-null, comment flag and capped
per-comment points, meaningful transcription, download timestamp);
moreover a metadata value of 0 counts as present, and a record with the
comment flag and 12 comments scores 10 + 10 on the comment component. -/
theorem C4_score_decomposition :
    (∀ e : Rec, get_data_completeness_score e
      = basicScore e + metaScore e + commentScore e
        + transcriptionScore e + downloadScore e)
    ∧ fieldNotNull [("view_count", Json.num 0)] "view_count" = true
    ∧ commentScore c4cap = 20 := by
  refine ⟨?_, by decide, by decide⟩
  intro e
  simp only [get_data_completeness_score, basicScore, metaScore, commentScore,
    transcriptionScore, downloadScore]
  rw [foldl_count, foldl_count]
  by_cases h1 : lookupF e "comments_extracted" = some (Json.bool true) <;>
    by_cases h2 : has_transcription_with_min_length e 50 = true <;>
      by_cases h3 : truthy ((lookupF e "downloaded_at").getD Json.null) = true <;>
        simp [h1, h2, h3] <;> omega

/-- C5: within a url group, the record kept is the first of the group (in
encounter order) whose completeness score equals the kept record's score:
score ties are broken by first occurrence. -/
theorem C5_dedup_tie_first (data : List Json) (u : Json)
    (hu : ∃ e ∈ data, urlKey e = some u) :
    ∃ kept,
      (remove_duplicates_from_data data).filter (urlIs u) = [kept] ∧
      (data.filter (urlIs u)).find? (fun r => scoreJ r == scoreJ kept) = some kept := by
  obtain ⟨e0, he0, hk0⟩ := hu
  have hnd : (keysOf (data.foldl addEntry ([], [])).1).Nodup :=
    groupFold_keys_nodup data ([], []) (by simp [keysOf])
  have hgood : goodGroups (data.foldl addEntry ([], [])).1 :=
    groupFold_good data ([], []) (by intro p hp; simp at hp)
  have hgrp : grpOf (data.foldl addEntry ([], [])).1 u = data.filter (urlIs u) := by
    have h := groupFold_grpOf data ([], []) u
    simpa [grpOf] using h
  have hns : (data.foldl addEntry ([], [])).2 = data.filter (fun e => (urlKey e).isNone) := by
    simpa using groupFold_ns data ([], [])
  have hmem : u ∈ keysOf (data.foldl addEntry ([], [])).1 :=
    (mem_keys_groupFold data ([], []) u).mpr (Or.inr ⟨e0, he0, hk0⟩)
  have hfil : ((data.foldl addEntry ([], [])).1.map pick).filter (urlIs u)
      = [pick (u, data.filter (urlIs u))] := by
    rw [filter_map_pick _ hnd hgood u, if_pos hmem, hgrp]
  have hout : remove_duplicates_from_data data
      = (data.foldl addEntry ([], [])).1.map pick
        ++ (data.foldl addEntry ([], [])).2 := rfl
  have hns_fil : ((data.foldl addEntry ([], [])).2).filter (urlIs u) = [] := by
    rw [hns]
    apply List.filter_eq_nil_iff.mpr
    intro a ha
    rw [List.mem_filter] at ha
    simp only [urlIs, decide_eq_true_eq]
    intro hku
    rw [hku] at ha
    simp at ha
  have hone : (remove_duplicates_from_data data).filter (urlIs u)
      = [pick (u, data.filter (urlIs u))] := by
    rw [hout, List.filter_append, hfil, hns_fil, List.append_nil]
  cases hgrp2 : data.filter (urlIs u) with
  | nil =>
    exfalso
    have hin : e0 ∈ data.filter (urlIs u) := by
      rw [List.mem_filter]
      exact ⟨he0, by simp [urlIs, hk0]⟩
    rw [hgrp2] at hin
    simp at hin
  | cons e rest =>
    cases rest with
    | nil =>
      refine ⟨e, ?_, ?_⟩
      · rw [hone, hgrp2]
        simp [pick]
      · simp [List.find?]
    | cons y t =>
      refine ⟨pyMaxBy scoreJ e (y :: t), ?_, ?_⟩
      · rw [hone, hgrp2]
        simp [pick]
      · exact pyMaxBy_first scoreJ (y :: t) e

theorem C5_dedup_tie_first_witness :
    ∃ kept,
      (remove_duplicates_from_data [exT1, exT2]).filter (urlIs (Json.str "T")) = [kept] ∧
      ([exT1, exT2].filter (urlIs (Json.str "T"))).find?
        (fun r => scoreJ r == scoreJ kept) = some kept :=
  C5_dedup_tie_first [exT1, exT2] (Json.str "T") (by decide)

/-- C9: deduplication is idempotent: applying remove_duplicates_from_data
to its own output returns that output unchanged. -/
theorem C9_dedup_idempotent (data : List Json) :
    remove_duplicates_from_data (remove_duplicates_from_data data)
      = remove_duplicates_from_data data := by
  have hnd : (keysOf (data.foldl addEntry ([], [])).1).Nodup :=
    groupFold_keys_nodup data ([], []) (by simp [keysOf])
  have hgood : goodGroups (data.foldl addEntry ([], [])).1 :=
    groupFold_good data ([], []) (by intro p hp; simp at hp)
  have hns : (data.foldl addEntry ([], [])).2 = data.filter (fun e => (urlKey e).isNone) := by
    simpa using groupFold_ns data ([], [])
  have hnonkey : ∀ e ∈ (data.foldl addEntry ([], [])).2, urlKey e = none := by
    intro e he
    rw [hns, List.mem_filter] at he
    exact Option.isNone_iff_eq_none.mp he.2
  have key : remove_duplicates_from_data data
      = (data.foldl addEntry ([], [])).1.map pick
        ++ (data.foldl addEntry ([], [])).2 := rfl
  rw [key]
  simp only [remove_duplicates_from_data, groupEntries]
  rw [List.foldl_append]
  rw [foldl_map_pick _ [] [] hnd hgood (by intro u hu; simp [keysOf])]
  rw [foldl_addEntry_nokey _ _ _ hnonkey]
  simp only [List.nil_append, List.map_map]
  have hmp : ∀ g ∈ (data.foldl addEntry ([], [])).1,
      (pick ∘ fun g => (g.1, [pick g])) g = pick g := by
    intro g hg
    simp [pick, Function.comp]
  rw [List.map_congr_left hmp]

/-! ## The incremental append writer: `append_batch_to_master_json_efficient` -/

/-- The chunk flush after each appended character: `if len(buffer) > 10000:
temp_file.write(buffer); buffer = ""`, returning the new buffer and write
list. -/
def flushChunk (buffer : List Char) (ws : List (List Char)) :
    List Char × List (List Char) :=
  if buffer.length > 10000 then ([], ws ++ [buffer]) else (buffer, ws)

/-- `buffer.endswith(',')`. -/
def endsComma (b : List Char) : Bool :=
  match b.getLast? with
  | some c => c = ','
  | none => false

/-- The streaming copy loop of the array branch: one step per character read
from the original file, tracking `in_string`, `escape_next` and
`bracket_depth`, with the 10000-character chunk flush.  When the closing
`]` of the top-level array is seen the loop rstrips the buffer, writes it
followed by a comma (unless it is empty or already ends in a comma) and
breaks — without clearing `buffer`.  Returns the write calls made inside
the loop and the final value of `buffer`. -/
def streamLoop : List Char → Bool → Bool → Nat → List Char → List (List Char) →
    List (List Char) × List Char
  | [], _, _, _, buffer, ws => (ws, buffer)
  | c :: cs, inS, esc, depth, buffer, ws =>
    if depth = 0 then (ws, buffer)
    else if esc then
      let p := flushChunk (buffer ++ [c]) ws
      streamLoop cs inS false depth p.1 p.2
    else if c = '"' ∧ inS = false then
      let p := flushChunk (buffer ++ [c]) ws
      streamLoop cs true false depth p.1 p.2
    else if c = '"' ∧ inS = true then
      let p := flushChunk (buffer ++ [c]) ws
      streamLoop cs false false depth p.1 p.2
    else if c = '\\' ∧ inS = true then
      let p := flushChunk (buffer ++ [c]) ws
      streamLoop cs inS true depth p.1 p.2
    else if c = '[' ∧ inS = false then
      let p := flushChunk (buffer ++ [c]) ws
      streamLoop cs inS false (depth + 1) p.1 p.2
    else if c = ']' ∧ inS = false then
      if depth = 1 then
        let b := pyRstripL buffer
        if b ≠ [] ∧ endsComma b = false then
          (if pyStripL b ≠ [] then ws ++ [b, [',']] else ws ++ [b], b)
        else (ws, b)
      else
        let p := flushChunk (buffer ++ [c]) ws
        streamLoop cs inS false (depth - 1) p.1 p.2
    else
      let p := flushChunk (buffer ++ [c]) ws
      streamLoop cs inS false depth p.1 p.2

/-- The write calls of the convert branch's item loop: `json.dump(item)`
then `,\n` between consecutive items. -/
def convertItemsWrites : List Json → List (List Char)
  | [] => []
  | [x] => [(dumpStr x).data]
  | x :: y :: ys => [(dumpStr x).data, [',', '\n']] ++ convertItemsWrites (y :: ys)

/-- The write calls of the array branch's item loop: two spaces,
`json.dump(item)`, then `,\n` between consecutive items. -/
def appendItemsWrites : List Json → List (List Char)
  | [] => []
  | [x] => [[' ', ' '], (dumpStr x).data]
  | x :: y :: ys =>
    [[' ', ' '], (dumpStr x).data, [',', '\n']] ++ appendItemsWrites (y :: ys)

/-- All write calls `append_batch_to_master_json_efficient` issues to the
temp file when the master file exists with content `existing`: the array
branch when the first character is `[` (streaming loop, post-loop
`if buffer: write(buffer)`, newline, indented new items, `\n]`), the
convert branch otherwise. -/
def appendTempWrites (existing : List Char) (items : List Json) :
    List (List Char) :=
  match existing with
  | '[' :: rest =>
    let p := streamLoop rest false false 1 [] []
    ['['] :: p.1
      ++ (if p.2 ≠ [] then [p.2] else [])
      ++ [['\n']] ++ appendItemsWrites items ++ [['\n', ']']]
  | _ =>
    [['['], pyRstripL existing, [',', '\n']] ++ convertItemsWrites items
      ++ [['\n', ']']]

/-- The final content of the temp file: the write calls concatenated. -/
def tempContent (existing : List Char) (items : List Json) : List Char :=
  (appendTempWrites existing items).foldr (fun a b => a ++ b) []

/-- The file-system operations of an append run: writes to the temp file,
then the final `shutil.move` of the temp file over the master path. -/
inductive FsOp where
  | writeTemp (s : List Char)
  | moveTempToMaster
  deriving DecidableEq

/-- The two files the append run touches. -/
structure Fs where
  master : Option (List Char)
  temp : Option (List Char)
  deriving DecidableEq

/-- Effect of one operation on the two files. -/
def applyOp (fs : Fs) (op : FsOp) : Fs :=
  match op with
  | FsOp.writeTemp s => { fs with temp := some (fs.temp.getD [] ++ s) }
  | FsOp.moveTempToMaster => { master := fs.temp, temp := none }

/-- The full operation sequence of an append run on an existing master
file. -/
def appendOps (existing : List Char) (items : List Json) : List FsOp :=
  (appendTempWrites existing items).map FsOp.writeTemp ++ [FsOp.moveTempToMaster]

/-- The `except` handler: `os.unlink(temp_path)`. -/
def cleanupTemp (fs : Fs) : Fs :=
  { fs with temp := none }

theorem foldl_writes_master :
    ∀ (ops : List FsOp) (fs : Fs),
    (∀ op ∈ ops, ∃ s, op = FsOp.writeTemp s) →
    (ops.foldl applyOp fs).master = fs.master := by
  intro ops
  induction ops with
  | nil => intro fs _; rfl
  | cons op t ih =>
    intro fs h
    obtain ⟨s, rfl⟩ := h op (by simp)
    rw [List.foldl_cons, ih _ (fun x hx => h x (by simp [hx]))]
    rfl

/-- The store record of the C1 scenario. -/
def c1rec : Json := Json.obj [("url", Json.str "x")]

/-- The new record appended in the C1 scenario. -/
def c1new : Json := Json.obj [("url", Json.str "y")]

set_option maxRecDepth 8000 in
/-- C1: on an ordinary existing store file (the canonical `json.dump` form
of a one-record array) and a single new record, the content the append run
writes to the temporary file before the rename is not valid JSON at all —
the streamed prefix is written twice, once at the closing-bracket break
and again by the post-loop flush — so the temp file never holds the
existing records followed by the new ones. -/
theorem C1_append_temp_invalid :
    parseDoc (dumpStr (Json.arr [c1rec])) = some (Json.arr [c1rec]) ∧
    parseDoc (String.mk (tempContent (dumpStr (Json.arr [c1rec])).data [c1new]))
      = none := by
  constructor
  · decide
  · decide

/-- C2: if an exception stops the append run before the final rename — the
run performed a prefix of the write calls and never the move — the
handler's cleanup leaves the master file's content unchanged and removes
the temporary file. -/
theorem C2_append_crash_clean (existing : List Char) (items : List Json)
    (pre : List FsOp)
    (hpre : pre <+: (appendTempWrites existing items).map FsOp.writeTemp) :
    cleanupTemp (pre.foldl applyOp ⟨some existing, none⟩)
      = ⟨some existing, none⟩ := by
  have hall : ∀ op ∈ pre, ∃ s, op = FsOp.writeTemp s := by
    intro op hop
    have hmem : op ∈ (appendTempWrites existing items).map FsOp.writeTemp :=
      hpre.subset hop
    rw [List.mem_map] at hmem
    obtain ⟨s2, _, rfl⟩ := hmem
    exact ⟨s2, rfl⟩
  have hmaster : (pre.foldl applyOp ⟨some existing, none⟩).master = some existing :=
    foldl_writes_master pre _ hall
  have hc : cleanupTemp (pre.foldl applyOp ⟨some existing, none⟩)
      = ⟨(pre.foldl applyOp ⟨some existing, none⟩).master, none⟩ := rfl
  rw [hc, hmaster]

theorem C2_append_crash_clean_witness :
    cleanupTemp ([FsOp.writeTemp ['[']].foldl applyOp ⟨some "[]".data, none⟩)
      = ⟨some "[]".data, none⟩ :=
  C2_append_crash_clean "[]".data [] [FsOp.writeTemp ['[']] (by decide)

/-! ## The URL cache: `is_duplicate` / `_rebuild_url_cache` -/

/-- The literal characters of the pattern `"url":`. -/
def urlPat : List Char := ['"', 'u', 'r', 'l', '"', ':']

/-- The regex `"url":\s*"([^"]+)"` tried at one position of the line: the
literal `"url":`, a maximal whitespace run, an opening quote, a nonempty
maximal run of non-quote characters (the capture), and a closing quote.
Backtracking adds nothing: shorter `\s*` runs end on a whitespace
character, never the required quote, and shorter captures end on a
non-quote character. -/
def matchUrlAt (cs : List Char) : Option (List Char) :=
  if urlPat.isPrefixOf cs then
    match (cs.drop urlPat.length).dropWhile isPyWs with
    | [] => none
    | d :: more =>
      if d = '"' then
        let cap := more.takeWhile (fun c => c != '"')
        if cap ≠ [] ∧ cap.length < more.length then some cap else none
      else none
  else none

/-- `re.search`: the leftmost position where the pattern matches. -/
def searchUrl : List Char → Option (List Char)
  | [] => none
  | c :: cs =>
    match matchUrlAt (c :: cs) with
    | some cap => some cap
    | none => searchUrl cs

/-- One line of `_rebuild_url_cache`: if the line contains `"url":`, add
the regex capture to the cache.  (The trailing newline Python leaves on
each line can neither create nor destroy a match of this pattern.) -/
def rebuildStep (acc : List (List Char)) (line : List Char) : List (List Char) :=
  if containsSub urlPat line then
    match searchUrl line with
    | some cap => acc ++ [cap]
    | none => acc
  else acc

/-- `_rebuild_url_cache` over the master file's content: the url strings
collected line by line. -/
def rebuildUrlCache (content : String) : List (List Char) :=
  (splitOnNl content.data).foldl rebuildStep []

/-- `is_duplicate(url)` when the in-memory processed set is empty and no
cache exists yet: the cache is rebuilt from the store file and consulted. -/
def is_duplicate_fresh (content : String) (url : String) : Bool :=
  decide (url.data ∈ rebuildUrlCache content)

theorem matchUrlAt_not_quote (c : Char) (cs : List Char) (h : c ≠ '"') :
    matchUrlAt (c :: cs) = none := by
  have hb : ('"' == c) = false := by
    simp only [beq_eq_false_iff_ne, ne_eq]
    exact fun he => h he.symm
  have hpre : urlPat.isPrefixOf (c :: cs) = false := by
    show (('"' == c) && List.isPrefixOf ['u', 'r', 'l', '"', ':'] cs) = false
    rw [hb]
    rfl
  unfold matchUrlAt
  rw [hpre]
  simp

theorem takeWhile_ne_quote (suf : List Char) :
    ∀ (X : List Char), (∀ c ∈ X, c ≠ '"') →
    (X ++ '"' :: suf).takeWhile (fun c => c != '"') = X := by
  intro X
  induction X with
  | nil =>
    intro _
    simp [List.takeWhile_cons]
  | cons a t ih =>
    intro h
    have ha : (a != '"') = true := by
      simp only [bne_iff_ne, ne_eq]
      exact h a (by simp)
    rw [List.cons_append, List.takeWhile_cons, ha]
    rw [ih (fun c hc => h c (by simp [hc]))]
    simp

theorem matchUrlAt_hit (X suf : List Char) (hX1 : X ≠ [])
    (hX2 : ∀ c ∈ X, c ≠ '"') :
    matchUrlAt (urlPat ++ ' ' :: '"' :: (X ++ '"' :: suf)) = some X := by
  have hpre : urlPat.isPrefixOf (urlPat ++ ' ' :: '"' :: (X ++ '"' :: suf)) = true := by
    rw [List.isPrefixOf_iff_prefix]
    exact List.prefix_append _ _
  unfold matchUrlAt
  rw [hpre, if_pos rfl, List.drop_left]
  rw [List.dropWhile_cons, if_pos (by decide), List.dropWhile_cons,
    if_neg (by decide)]
  simp only []
  rw [if_pos trivial]
  rw [takeWhile_ne_quote suf X hX2]
  rw [if_pos ⟨hX1, by simp only [List.length_append, List.length_cons]; omega⟩]

theorem searchUrl_at_hit (X suf : List Char) (hX1 : X ≠ [])
    (hX2 : ∀ c ∈ X, c ≠ '"') :
    searchUrl (urlPat ++ ' ' :: '"' :: (X ++ '"' :: suf)) = some X := by
  have hm := matchUrlAt_hit X suf hX1 hX2
  have hcons : urlPat ++ ' ' :: '"' :: (X ++ '"' :: suf)
      = '"' :: ('u' :: 'r' :: 'l' :: '"' :: ':'
          :: (' ' :: '"' :: (X ++ '"' :: suf))) := rfl
  rw [hcons] at hm ⊢
  simp only [searchUrl, hm]

theorem searchUrl_append_no_quote :
    ∀ (pre rest : List Char), (∀ c ∈ pre, c ≠ '"') →
    searchUrl (pre ++ rest) = searchUrl rest := by
  intro pre
  induction pre with
  | nil => intro rest _; rw [List.nil_append]
  | cons a t ih =>
    intro rest h
    have ha : a ≠ '"' := h a (by simp)
    rw [List.cons_append]
    have hm : matchUrlAt (a :: (t ++ rest)) = none := matchUrlAt_not_quote a _ ha
    simp only [searchUrl, hm]
    exact ih rest (fun c hc => h c (by simp [hc]))

theorem containsSub_mid :
    ∀ (pre p rest : List Char), containsSub p (pre ++ (p ++ rest)) = true := by
  intro pre
  induction pre with
  | nil =>
    intro p rest
    rw [List.nil_append]
    cases p with
    | nil =>
      cases rest with
      | nil => rfl
      | cons c cs => simp [containsSub, List.isPrefixOf]
    | cons q qs =>
      rw [List.cons_append]
      simp only [containsSub]
      have hp : List.isPrefixOf (q :: qs) (q :: (qs ++ rest)) = true := by
        rw [List.isPrefixOf_iff_prefix]
        exact ⟨rest, by simp⟩
      rw [hp]
      simp
  | cons a t ih =>
    intro p rest
    rw [List.cons_append]
    simp only [containsSub]
    rw [ih p rest]
    simp

theorem rebuild_acc_subset :
    ∀ (lines : List (List Char)) (acc : List (List Char)) (y : List Char),
    y ∈ acc → y ∈ lines.foldl rebuildStep acc := by
  intro lines
  induction lines with
  | nil => intro acc y hy; exact hy
  | cons l t ih =>
    intro acc y hy
    rw [List.foldl_cons]
    apply ih
    unfold rebuildStep
    by_cases hc : containsSub urlPat l = true
    · rw [if_pos hc]
      cases searchUrl l with
      | some cap => exact List.mem_append_left _ hy
      | none => exact hy
    · rw [if_neg hc]
      exact hy

theorem mem_rebuild_of_line :
    ∀ (lines : List (List Char)) (acc : List (List Char)) (L x : List Char),
    L ∈ lines → containsSub urlPat L = true → searchUrl L = some x →
    x ∈ lines.foldl rebuildStep acc := by
  intro lines
  induction lines with
  | nil => intro acc L x hL; simp at hL
  | cons l t ih =>
    intro acc L x hL hc hs
    rw [List.foldl_cons]
    rcases List.mem_cons.mp hL with hL | hL
    · subst hL
      apply rebuild_acc_subset
      unfold rebuildStep
      rw [if_pos hc, hs]
      simp
    · exact ih _ L x hL hc hs

/-- A valid store file whose only record has url "X", with the `"url":` key
and the `"X"` value on different lines. -/
def c8bad : String := "[\x7b\"url\":\n\"X\"\x7d]"

/-- A store file in the canonical single-line layout for the url field. -/
def c8ok : String := "[\n  \x7b\"url\": \"X\"\x7d\n]"

/-- C8: counterexample — a valid store file whose sole record has url "X",
with key and value on different lines (legal JSON whitespace): the
line-by-line regex cache rebuild finds nothing, and is_duplicate("X")
returns false even though "X" is the url of a record of the store. -/
theorem C8_counterexample_multiline :
    parseDoc c8bad = some (Json.arr [Json.obj [("url", Json.str "X")]]) ∧
    is_duplicate_fresh c8bad "X" = false := by
  constructor
  · decide
  · decide

/-- C8 amended: if some line of the store file carries the url field in the
single-line form `"url": "X"` — no double quote earlier on that line, X
nonempty and free of double quotes — then is_duplicate("X") returns true
with an empty in-memory processed set and no prior cache: the store is
consulted. -/
theorem C8_store_url_single_line (content : String) (X : String)
    (pre suf : List Char)
    (hline : (pre ++ (urlPat ++ ' ' :: '"' :: (X.data ++ '"' :: suf)))
        ∈ splitOnNl content.data)
    (hpre : ∀ c ∈ pre, c ≠ '"')
    (hX1 : X.data ≠ []) (hX2 : ∀ c ∈ X.data, c ≠ '"') :
    is_duplicate_fresh content X = true := by
  have hs : searchUrl (pre ++ (urlPat ++ ' ' :: '"' :: (X.data ++ '"' :: suf)))
      = some X.data := by
    rw [searchUrl_append_no_quote pre _ hpre]
    exact searchUrl_at_hit X.data suf hX1 hX2
  have hc : containsSub urlPat
      (pre ++ (urlPat ++ ' ' :: '"' :: (X.data ++ '"' :: suf))) = true :=
    containsSub_mid pre urlPat (' ' :: '"' :: (X.data ++ '"' :: suf))
  unfold is_duplicate_fresh
  rw [decide_eq_true_eq]
  unfold rebuildUrlCache
  exact mem_rebuild_of_line (splitOnNl content.data) [] _ X.data hline hc hs

theorem C8_store_url_single_line_witness :
    is_duplicate_fresh c8ok "X" = true :=
  C8_store_url_single_line c8ok "X" [' ', ' ', '\x7b'] ['\x7d']
    (by decide) (by decide) (by decide) (by decide)

end TikTok
